import Mathlib

/-!
Verification development for the licensepy license-header formatter
(`src/format.rs`).  The Rust source is shallowly embedded: strings are
modelled through their character lists, file contents are `String`s,
fallible operations (panics, `unwrap`, `exit`) return `Option`.
-/

set_option maxRecDepth 10000

/-- Byte length of a character list, matching Rust `str::len`. -/
def bytelen (l : List Char) : Nat :=
  l.foldr (fun c n => c.utf8Size + n) 0

/-- Splits a character list at every occurrence of `sep`, keeping empty
fields, matching Rust `str::split` with a one-character pattern.  The
result is always non-empty. -/
def splitSepChar (sep : Char) : List Char → List (List Char)
  | [] => [[]]
  | c :: rest =>
    if c = sep then [] :: splitSepChar sep rest
    else
      match splitSepChar sep rest with
      | [] => [[c]]
      | f :: fs => (c :: f) :: fs

/-- Joins fields with a separator character, matching Rust `[&str]::join`
with a one-character separator. -/
def joinSep (sep : Char) : List (List Char) → List Char
  | [] => []
  | [f] => f
  | f :: g :: fs => f ++ sep :: joinSep sep (g :: fs)

/-- Removes one trailing carriage return, as Rust line iterators do for
lines terminated by CRLF. -/
def stripCR (l : List Char) : List Char :=
  if l.getLast? = some '\r' then l.dropLast else l

/-- Rust `str::lines` / `BufRead::lines` over raw characters: split at
newline characters, drop a final empty field (an optional terminating
newline), and strip a carriage return from every newline-terminated line. -/
def rustLinesL (s : List Char) : List (List Char) :=
  let fs := splitSepChar '\n' s
  fs.dropLast.map stripCR ++
    (match fs.getLast? with
     | some [] => []
     | some l => [l]
     | none => [])

/-- Rust `str::trim` (whitespace removed from both ends). -/
def trimChars (l : List Char) : List Char :=
  ((l.dropWhile Char.isWhitespace).reverse.dropWhile Char.isWhitespace).reverse

/-- The comment marker `COMMENT = "#"` as a prefix test. -/
def isComment (l : List Char) : Bool :=
  match l with
  | '#' :: _ => true
  | _ => false

/-- The interpreter-directive marker `HASHBANG = "#!"` as a prefix test. -/
def isHashbang (l : List Char) : Bool :=
  match l with
  | '#' :: '!' :: _ => true
  | _ => false

/-- Rust `line.trim().is_empty()`: the line holds only whitespace. -/
def isBlank (l : List Char) : Bool :=
  (trimChars l).isEmpty

/-- Accumulates the value of a digit run; fails at the first non-digit. -/
def digitsValAux : List Char → Nat → Option Nat
  | [], acc => some acc
  | c :: rest, acc =>
    if c.isDigit then digitsValAux rest (acc * 10 + (c.toNat - 48)) else none

/-- Rust `str::parse::<i64>`: optional sign, one or more ASCII digits,
nothing else, and the value must fit in a signed 64-bit integer. -/
def parseI64 (l : List Char) : Option Int :=
  let sgnDigits : Bool × List Char :=
    match l with
    | '+' :: rest => (false, rest)
    | '-' :: rest => (true, rest)
    | _ => (false, l)
  match sgnDigits.2 with
  | [] => none
  | _ =>
    match digitsValAux sgnDigits.2 0 with
    | none => none
    | some v =>
      let val : Int := if sgnDigits.1 then -(v : Int) else (v : Int)
      if val < -(2 ^ 63) ∨ 2 ^ 63 ≤ val then none else some val

/-- Decides whether `p` is a prefix of `l`. -/
def isPrefixC : List Char → List Char → Bool
  | [], _ => true
  | _ :: _, [] => false
  | a :: as, b :: bs => a = b && isPrefixC as bs

/-- Fuel-indexed worker for `replaceAll`; the fuel always bounds the
length of the remaining list, so the zero-fuel fallback is unreachable. -/
def replaceAllGo (p r : List Char) : Nat → List Char → List Char
  | _, [] => []
  | 0, l => l
  | n + 1, c :: rest =>
    if !p.isEmpty && isPrefixC p (c :: rest) then
      r ++ replaceAllGo p r n (rest.drop (p.length - 1))
    else c :: replaceAllGo p r n rest

/-- Rust `str::replace`: replaces every occurrence of a non-empty pattern.
An empty pattern is returned unchanged (the source only replaces the
literal `{licensee}` and `{year}`). -/
def replaceAll (p r l : List Char) : List Char :=
  replaceAllGo p r l.length l

/-- Rust `str::find` for a literal pattern, returned as the split of the
haystack around the first occurrence: `some (before, after)` with
`hay = before ++ needle ++ after`. -/
def findSplit (needle : List Char) : List Char → Option (List Char × List Char)
  | [] => if isPrefixC needle [] then some ([], []) else none
  | c :: rest =>
    if isPrefixC needle (c :: rest) then some ([], (c :: rest).drop needle.length)
    else (findSplit needle rest).map (fun p => (c :: p.1, p.2))

/-- Rust `str::contains` for a literal pattern. -/
def containsSub (needle hay : List Char) : Bool :=
  (findSplit needle hay).isSome

/-- Rust `String::split_off` at a byte index: `none` models the panic when
the index is past the end or not a character boundary. -/
def splitAtBytes : List Char → Nat → Option (List Char × List Char)
  | l, 0 => some ([], l)
  | [], _ + 1 => none
  | c :: rest, n + 1 =>
    if c.utf8Size ≤ n + 1 then
      (splitAtBytes rest (n + 1 - c.utf8Size)).map (fun p => (c :: p.1, p.2))
    else none

/-- Rust slice indexing `l[a..b]`: `none` models the panic when the range
is out of bounds. -/
def sliceCk (l : List (List Char)) (a b : Nat) : Option (List (List Char)) :=
  if a ≤ b ∧ b ≤ l.length then some ((l.drop a).take (b - a)) else none

/-- The formatter configuration (`utils.rs`, struct `Config`), restricted
to the fields the header engine reads. -/
structure Config where
  license_header_template : Option String
  licensee : Option String
  license_year : Int

/-- Result of the header check (`format.rs`, enum `LicenseCheckRes`). -/
inductive LicenseCheckRes
  | Missing
  | Found
  | Outdated
  deriving DecidableEq, Repr

/-- The word `{year}` used as a template placeholder. -/
def yearTok : List Char := "{year}".data

/-- Inner word loop of `check_license`: walks the zipped comment/template
words, counting matches.  Returns `none` when a mismatch occurs after the
matcher has committed (`tNum ≠ 0`, modelling `return Missing`), otherwise
the final `matched_words` count and `outdated` flag. -/
def matchWords (tNum : Nat) (yr : Int) :
    List (List Char × List Char) → Nat → Bool → Option (Nat × Bool)
  | [], m, od => some (m, od)
  | p :: rest, m, od =>
    if p.2 = yearTok then
      match parseI64 p.1 with
      | some y => matchWords tNum yr rest (m + 1) (od || decide (y ≠ yr))
      | none =>
        if tNum ≠ 0 then none else matchWords tNum yr rest m od
    else
      if p.1 ≠ p.2 then
        (if tNum ≠ 0 then none else matchWords tNum yr rest m od)
      else matchWords tNum yr rest (m + 1) od

/-- Outcome of the scanning loop of `check_license`. -/
inductive LoopRes
  | earlyMissing
  | finished (t st : Nat) (od : Bool)
  deriving DecidableEq, Repr

/-- Main scanning loop of `check_license` over the cleaned comment lines.
`tm` is the cleaned template, `T` its line count, `yr` the configured
year; the loop state is the line index `idx`, the template pointer `t`
(`template_line_num`), the candidate start `st` (`found_license_start`)
and the `od` flag (`outdated`). -/
def checkLoop (tm : List (List Char)) (T : Nat) (yr : Int) :
    List (List Char) → Nat → Nat → Nat → Bool → LoopRes
  | [], _, t, st, od => .finished t st od
  | c :: rest, idx, t, st, od =>
    let cw := splitSepChar ' ' c
    let tw := splitSepChar ' ' (tm.getD t [])
    if cw.length ≠ tw.length then
      if t ≠ 0 then .earlyMissing
      else checkLoop tm T yr rest (idx + 1) t st od
    else
      match matchWords t yr (cw.zip tw) 0 od with
      | none => .earlyMissing
      | some md =>
        let st₂ := if t = 0 then idx else st
        let t₂ := if md.1 = tw.length then t + 1 else t
        if t₂ ≠ T then checkLoop tm T yr rest (idx + 1) t₂ st₂ md.2
        else .finished t₂ st₂ md.2

/-- The comparison template after the licensee substitution of
`check_license` (`header_template.replace("{licensee}", licensee)` when a
licensee is configured). -/
def renderedTemplate (config : Config) (tmpl : String) : List Char :=
  match config.licensee with
  | some l => replaceAll "{licensee}".data l.data tmpl.data
  | none => tmpl.data

/-- The `clean_header` closure of `check_license`: strip leading comment
markers and surrounding whitespace from every line.  The non-empty filter
present in an earlier revision is commented out in the source and hence
absent here. -/
def cleanHeader (s : List Char) : List (List Char) :=
  (rustLinesL s).map (fun line => trimChars (line.dropWhile (fun c => c = '#')))

/-- The function `check_license` of `format.rs`.  `none` models a panic
(the `unwrap` of a missing template, the out-of-bounds `templates[0]`
when the template cleans to zero lines, or an out-of-bounds span slice). -/
def check_license (comment_block : String) (config : Config) :
    Option (String × LicenseCheckRes) :=
  match config.license_header_template with
  | none => none
  | some tmpl =>
    let header_template := renderedTemplate config tmpl
    let comments := cleanHeader comment_block.data
    let templates := cleanHeader header_template
    if comments.length < templates.length then some ("", .Missing)
    else
      match templates.head? with
      | none => none
      | some _ =>
        match checkLoop templates templates.length config.license_year comments 0 0 0 false with
        | .earlyMissing => some ("", .Missing)
        | .finished t st od =>
          if t = templates.length then
            if od then
              match sliceCk (rustLinesL comment_block.data) st (st + t) with
              | none => none
              | some sl => some (⟨joinSep '\n' sl⟩, .Outdated)
            else some ("", .Found)
          else some ("", .Missing)

/-- Loop of `find_first_comment` over the lines of the file: `fh` is the
comment block accumulated so far (`found_header`) and `ia` the insertion
byte offset (`insert_at`). -/
def ffcAux : List (List Char) → List Char → Nat → List Char × Nat
  | [], fh, ia => (fh, ia)
  | line :: rest, fh, ia =>
    if fh.isEmpty then
      if isHashbang line then ffcAux rest fh (ia + bytelen line + 1)
      else if isBlank line then ffcAux rest fh ia
      else if isComment line then ffcAux rest (fh ++ line ++ ['\n']) ia
      else (fh, ia)
    else
      if isComment line then ffcAux rest (fh ++ line ++ ['\n']) ia
      else (fh, ia)

/-- The function `find_first_comment` of `format.rs`: first comment block
of the file plus the byte offset at which a missing header is inserted. -/
def find_first_comment (content : String) : String × Nat :=
  let r := ffcAux (rustLinesL content.data) [] 0
  (⟨r.1⟩, r.2)

/-- The function `insert_header` of `format.rs`, as a pure function from
the old content to the new content.  `none` models the `split_off` panic
on an out-of-range or non-boundary index. -/
def insert_header (content license_header : String) (insert_at : Nat) : Option String :=
  if insert_at = 0 then
    some ⟨license_header.data ++
      (if content.data.head? = some '#' then ['\n'] else []) ++ content.data⟩
  else
    match splitAtBytes content.data insert_at with
    | none => none
    | some p =>
      some ⟨(if (trimChars p.1).isEmpty then [] else p.1) ++ license_header.data ++
        (if p.2.head? = some '#' then ['\n'] else []) ++ p.2⟩

/-- The function `update_header` of `format.rs`, as a pure function from
the old content to the new content.  `none` models the panic of the
`unwrap` on `content.find(existing_header)`. -/
def update_header (content exisiting_header license_header : String) : Option String :=
  let content₂ :=
    if content.data.getLast? = some '\n' then content.data else content.data ++ ['\n']
  match findSplit exisiting_header.data content₂ with
  | none => none
  | some p =>
    some ⟨p.1 ++ license_header.data ++
      (if p.2.head? = some '#' then ['\n'] else []) ++ p.2⟩

/-- The function `format_header` of `format.rs`: fill the template
placeholders and normalise every line to carry the comment marker.
`none` models the `exit(1)` when `{licensee}` has no value (and the
unreachable `unwrap` of a missing template). -/
def format_header (config : Config) : Option String :=
  match config.license_header_template with
  | none => none
  | some t =>
    let afterLicensee : Option (List Char) :=
      if containsSub "{licensee}".data t.data then
        match config.licensee with
        | none => none
        | some l => some (replaceAll "{licensee}".data l.data t.data)
      else some t.data
    match afterLicensee with
    | none => none
    | some h =>
      let h₂ := replaceAll "{year}".data (toString config.license_year).data h
      some ⟨((rustLinesL h₂).map (fun line =>
        let l := trimChars line
        if !isComment l then '#' :: ' ' :: l ++ ['\n'] else l ++ ['\n'])).flatten⟩

/-- The method `Formatter::format_file` of `format.rs`, as a pure function
of the file content: returns the needs-fix flag and the resulting file
content (`none` models a panic). -/
def format_file (content : String) (config : Config) (header : String)
    (dry_run : Bool) : Option (Bool × String) :=
  match check_license (find_first_comment content).1 config with
  | none => none
  | some (_, .Missing) =>
    if dry_run then some (true, content)
    else (insert_header content header (find_first_comment content).2).map
      (fun c => (true, c))
  | some (_, .Found) => some (false, content)
  | some (rep, .Outdated) =>
    if dry_run then some (true, content)
    else (update_header content rep header).map (fun c => (true, c))

/-- The method `Formatter::format_files` of `format.rs`: each file is
`none` when opening or reading it fails (the `unwrap` panics) and
`some content` otherwise; the result is the count of files needing a fix,
or `none` when any per-file panic aborts the run. -/
def format_files (files : List (Option String)) (config : Config)
    (header : String) (dry_run : Bool) : Option Nat :=
  match files with
  | [] => some 0
  | f :: rest =>
    match f with
    | none => none
    | some content =>
      match format_file content config header dry_run with
      | none => none
      | some r =>
        match format_files rest config header dry_run with
        | none => none
        | some n => some ((if r.1 then 1 else 0) + n)

/-- The configuration used by the repository's own test `test_format`. -/
def testCfg : Config :=
  { license_header_template := some "# {year} {licensee}"
    licensee := some "Acme Corp"
    license_year := 2025 }

/-- The rendered output header for `testCfg`. -/
def testHdr : String := "# 2025 Acme Corp\n"

example : format_header testCfg = some testHdr := by decide

example : find_first_comment "" = ("", 0) := by decide

example : find_first_comment "#!/usr/bin/python\n\n# Comment" = ("# Comment\n", 18) := by
  decide

example : check_license "# Comment\n" testCfg = some ("", .Missing) := by decide

example :
    check_license "# 2025 Acme Corp\n" testCfg = some ("", .Found) := by decide

example :
    check_license "# 2024 Acme Corp\n" testCfg =
      some ("# 2024 Acme Corp", .Outdated) := by decide

example :
    format_file "" testCfg testHdr false = some (true, "# 2025 Acme Corp\n") := by
  decide

example :
    format_file "#!/usr/bin/python\n\n# 2024 Acme Corp" testCfg testHdr false =
      some (true, "#!/usr/bin/python\n\n# 2025 Acme Corp\n\n") := by decide

example :
    format_file "#!/usr/bin/python\n\n# Comment" testCfg testHdr false =
      some (true, "#!/usr/bin/python\n# 2025 Acme Corp\n\n# Comment") := by decide

example :
    format_file "#!/usr/bin/python\n# 2024 Acme Corp\n\n# More Comment" testCfg testHdr false =
      some (true, "#!/usr/bin/python\n# 2025 Acme Corp\n\n\n# More Comment\n") := by decide

/-!  Helper lemmas about the comment-block extractor loop. -/

/-- Glues lines back together with a newline after every line, the shape in
which `find_first_comment` accumulates the comment block. -/
def glueNL : List (List Char) → List Char
  | [] => []
  | l :: rest => l ++ '\n' :: glueNL rest

/-- Sum of `line byte length + 1` over the interpreter-directive lines of a
line list: the total amount by which the extractor advances `insert_at`. -/
def sumHB : List (List Char) → Nat
  | [] => 0
  | l :: rest => (if isHashbang l then bytelen l + 1 else 0) + sumHB rest

theorem ffcAux_state_nonempty (ls : List (List Char)) :
    ∀ fh ia, fh ≠ [] →
      ffcAux ls fh ia = (fh ++ glueNL (ls.takeWhile (fun l => isComment l)), ia) := by
  induction ls with
  | nil => intro fh ia _; simp [ffcAux, glueNL]
  | cons l rest ih =>
    intro fh ia hfh
    have hne : fh.isEmpty = false := by
      cases fh with
      | nil => exact absurd rfl hfh
      | cons a b => rfl
    by_cases hc : isComment l = true
    · rw [show ffcAux (l :: rest) fh ia = ffcAux rest (fh ++ l ++ ['\n']) ia from by
        simp [ffcAux, hne, hc]]
      rw [ih (fh ++ l ++ ['\n']) ia (by simp)]
      simp [List.takeWhile_cons, hc, glueNL, List.append_assoc]
    · have hcf : isComment l = false := by revert hc; cases isComment l <;> simp
      simp [ffcAux, hne, hcf, List.takeWhile_cons, glueNL]

theorem ffcAux_shift (ls : List (List Char)) :
    ∀ n, ffcAux ls [] n = ((ffcAux ls [] 0).1, n + (ffcAux ls [] 0).2) := by
  induction ls with
  | nil => intro n; simp [ffcAux]
  | cons l rest ih =>
    intro n
    by_cases hhb : isHashbang l = true
    · rw [show ffcAux (l :: rest) [] n = ffcAux rest [] (n + bytelen l + 1) from by
        simp [ffcAux, hhb]]
      rw [show ffcAux (l :: rest) [] 0 = ffcAux rest [] (0 + bytelen l + 1) from by
        simp [ffcAux, hhb]]
      rw [ih (n + bytelen l + 1), ih (0 + bytelen l + 1)]
      simp only [Prod.mk.injEq]
      exact ⟨trivial, by omega⟩
    · have hhbf : isHashbang l = false := by revert hhb; cases isHashbang l <;> simp
      by_cases hbl : isBlank l = true
      · simpa [ffcAux, hhbf, hbl] using ih n
      · have hblf : isBlank l = false := by revert hbl; cases isBlank l <;> simp
        by_cases hc : isComment l = true
        · have h1 := ffcAux_state_nonempty rest (l ++ ['\n']) n (by simp)
          have h2 := ffcAux_state_nonempty rest (l ++ ['\n']) 0 (by simp)
          simp [ffcAux, hhbf, hblf, hc, h1, h2]
        · have hcf : isComment l = false := by revert hc; cases isComment l <;> simp
          simp [ffcAux, hhbf, hblf, hcf]

/-- The configuration of Scenario B: template with the licensee already
substituted, configured year 2025. -/
def cfgB : Config :=
  { license_header_template := some "# {year} Acme Corp"
    licensee := none
    license_year := 2025 }

/-- C3 (counterexample): in Scenario B the replacement span returned by
`check_license` is not `"# 2024 Acme Corp\n"`; the span is joined from the
matched block lines without a trailing newline. -/
theorem scenario_b_span_counterexample :
    ¬ (check_license (find_first_comment "#!/usr/bin/python\n\n# 2024 Acme Corp").1 cfgB
        = some ("# 2024 Acme Corp\n", .Outdated)) := by
  decide

/-- C3 (amended): in Scenario B the classification is `Outdated`, the
replacement span is `"# 2024 Acme Corp"` (no trailing newline), and Fix
mode rewrites the file to
`"#!/usr/bin/python\n\n# 2025 Acme Corp\n\n"`. -/
theorem scenario_b_outdated_and_fixed :
    check_license (find_first_comment "#!/usr/bin/python\n\n# 2024 Acme Corp").1 cfgB
      = some ("# 2024 Acme Corp", .Outdated)
    ∧ format_file "#!/usr/bin/python\n\n# 2024 Acme Corp" cfgB "# 2025 Acme Corp\n" false
      = some (true, "#!/usr/bin/python\n\n# 2025 Acme Corp\n\n") := by
  constructor
  · decide
  · decide

/-- C4 (counterexample): a whitespace-only leading line does not advance
`insert_at`: on the content `"\n\n# Comment"` the extractor returns
`insert_at = 0`, not the byte offset `2` past the two blank lines that the
claim predicts. -/
theorem insert_at_blanks_counterexample :
    (find_first_comment "\n\n# Comment").2 = 0
    ∧ ¬ ((find_first_comment "\n\n# Comment").2 = 2) := by
  decide

/-- C4 (amended): while no comment line has been seen, a whitespace-only
line is skipped without advancing `insert_at`; only interpreter-directive
lines advance it, by their byte length plus one.  Hence over any prefix of
hashbang and/or blank lines the returned offset is the sum over the
hashbang lines alone. -/
theorem insert_at_advances_only_for_hashbang (pre rest : List (List Char))
    (h : ∀ l ∈ pre, isHashbang l = true ∨ isBlank l = true) :
    ffcAux (pre ++ rest) [] 0 =
      ((ffcAux rest [] 0).1, sumHB pre + (ffcAux rest [] 0).2) := by
  induction pre with
  | nil => simp [sumHB]
  | cons l pre ih =>
    have hl := h l (by simp)
    have hrest : ∀ x ∈ pre, isHashbang x = true ∨ isBlank x = true := by
      intro x hx; exact h x (by simp [hx])
    by_cases hhb : isHashbang l = true
    · rw [show ffcAux ((l :: pre) ++ rest) [] 0 = ffcAux (pre ++ rest) [] (0 + bytelen l + 1)
        from by simp [ffcAux, hhb]]
      rw [ffcAux_shift (pre ++ rest) (0 + bytelen l + 1), ih hrest]
      simp only [Prod.mk.injEq, sumHB, hhb, if_pos]
      exact ⟨trivial, by omega⟩
    · have hhbf : isHashbang l = false := by revert hhb; cases isHashbang l <;> simp
      have hbl : isBlank l = true := by
        rcases hl with h1 | h1
        · exact absurd h1 hhb
        · exact h1
      rw [show ffcAux ((l :: pre) ++ rest) [] 0 = ffcAux (pre ++ rest) [] 0
        from by simp [ffcAux, hhbf, hbl]]
      rw [ih hrest]
      simp [sumHB, hhbf]

/-- C4 (witness): an interpreter directive of byte length 3 followed by a
blank line yields exactly offset 4, the blank line contributing nothing. -/
theorem insert_at_advances_only_for_hashbang_witness :
    (∀ l ∈ ["#!a".data, " ".data], isHashbang l = true ∨ isBlank l = true)
    ∧ ffcAux (["#!a".data, " ".data] ++ ["# c".data]) [] 0 =
        ((ffcAux ["# c".data] [] 0).1,
          sumHB ["#!a".data, " ".data] + (ffcAux ["# c".data] [] 0).2) :=
  ⟨by decide, insert_at_advances_only_for_hashbang ["#!a".data, " ".data] ["# c".data]
    (by decide)⟩

/-- C5 (counterexample): the cleaned template keeps lines that clean to
empty (the non-empty filter is commented out in the source), so for the
template `"#\n# {year} Acme Corp"` the required line count is 2, not the
claimed 1; a one-line block that fully matches the only non-empty template
line is classified `Missing` by the length guard. -/
theorem template_line_count_counterexample :
    (cleanHeader "#\n# {year} Acme Corp".data).length = 2
    ∧ ((cleanHeader "#\n# {year} Acme Corp".data).filter (fun l => !l.isEmpty)).length = 1
    ∧ check_license "# 2025 Acme Corp\n"
        { license_header_template := some "#\n# {year} Acme Corp"
          licensee := none
          license_year := 2025 }
        = some ("", .Missing) := by
  refine ⟨by decide, by decide, by decide⟩

/-- C5 (amended): the required line count `T` counts all cleaned template
lines, including those that clean to empty, and a block with fewer cleaned
lines than `T` is always classified `Missing`. -/
theorem missing_when_fewer_lines_than_template (block : String) (cfg : Config)
    (tmpl : String) (ht : cfg.license_header_template = some tmpl)
    (hlen : (cleanHeader block.data).length <
      (cleanHeader (renderedTemplate cfg tmpl)).length) :
    check_license block cfg = some ("", .Missing) := by
  unfold check_license
  rw [ht]
  simp only [if_pos hlen]

/-- C5 (witness): the empty block has fewer cleaned lines than the test
template, and is classified `Missing`. -/
theorem missing_when_fewer_lines_than_template_witness :
    testCfg.license_header_template = some "# {year} {licensee}"
    ∧ check_license "" testCfg = some ("", .Missing) :=
  ⟨rfl, missing_when_fewer_lines_than_template "" testCfg "# {year} {licensee}" rfl
    (by decide)⟩

/-- C7 (counterexample): an unreadable file (the `unwrap` on opening it
panics) aborts the whole run: with a failing first file the batch result
is the panic `none`, while the remaining file alone would be processed and
counted. -/
theorem format_files_aborts_on_unreadable_file :
    format_files [none, some "x = 1\n"] testCfg testHdr true = none
    ∧ format_files [some "x = 1\n"] testCfg testHdr true = some 1 := by
  refine ⟨by decide, by decide⟩

/-- C7 (amended): failure to open or read any target file panics the
worker and aborts the entire run; no per-file recovery exists and no count
is produced. -/
theorem format_files_panic_propagates (files : List (Option String)) (cfg : Config)
    (hdr : String) (dry : Bool) (h : none ∈ files) :
    format_files files cfg hdr dry = none := by
  induction files with
  | nil => cases h
  | cons f rest ih =>
    rcases List.mem_cons.mp h with h1 | h1
    · rw [← h1]; rfl
    · cases f with
      | none => rfl
      | some content =>
        unfold format_files
        rw [ih h1]
        cases hf : format_file content cfg hdr dry <;> simp [hf]

/-- C7 (witness): a batch consisting of one unreadable file aborts. -/
theorem format_files_panic_propagates_witness :
    (none ∈ [none, some "x = 1\n"])
    ∧ format_files [none, some "x = 1\n"] testCfg testHdr false = none :=
  ⟨by decide, format_files_panic_propagates [none, some "x = 1\n"] testCfg testHdr false
    (by decide)⟩

/-- C9: the needs-fix flag is true exactly for `Missing` and `Outdated`
classifications; check-only mode returns the content unchanged (no write)
with that flag, and whenever fix mode returns (does not panic) it reports
the identical flag. -/
theorem needs_fix_matches_classification (content : String) (cfg : Config)
    (hdr : String) (rep : String) (cls : LicenseCheckRes)
    (h : check_license (find_first_comment content).1 cfg = some (rep, cls)) :
    format_file content cfg hdr true
        = some (decide (cls = .Missing ∨ cls = .Outdated), content)
    ∧ ((format_file content cfg hdr false).map Prod.fst = none
       ∨ (format_file content cfg hdr false).map Prod.fst
           = some (decide (cls = .Missing ∨ cls = .Outdated))) := by
  cases cls with
  | Missing =>
    constructor
    · unfold format_file; rw [h]; rfl
    · unfold format_file
      rw [h]
      simp only [if_neg (Bool.false_ne_true)]
      cases insert_header content hdr (find_first_comment content).2 with
      | none => left; rfl
      | some c => right; rfl
  | Found =>
    constructor
    · unfold format_file; rw [h]; rfl
    · unfold format_file; rw [h]; right; rfl
  | Outdated =>
    constructor
    · unfold format_file; rw [h]; rfl
    · unfold format_file
      rw [h]
      simp only [if_neg (Bool.false_ne_true)]
      cases update_header content rep hdr with
      | none => left; rfl
      | some c => right; rfl

/-- C9 (witness): for the empty file the classification is `Missing`, the
check-only flag is true with no write, and fix mode reports the same
flag. -/
theorem needs_fix_matches_classification_witness :
    check_license (find_first_comment "").1 testCfg = some ("", .Missing)
    ∧ (format_file "" testCfg testHdr true = some (true, "")
       ∧ ((format_file "" testCfg testHdr false).map Prod.fst = none
          ∨ (format_file "" testCfg testHdr false).map Prod.fst = some true)) :=
  ⟨by decide, needs_fix_matches_classification "" testCfg testHdr "" .Missing (by decide)⟩

/-- C10: when the configured template cleans to zero lines (for instance
the empty template string), the length guard never fires and the borrow
`templates[0]` taken before the scanning loop is out of bounds, so
`check_license` panics (`none`) for every comment block instead of
returning a classification. -/
theorem check_license_empty_template_panics (block : String) (cfg : Config)
    (tmpl : String) (ht : cfg.license_header_template = some tmpl)
    (hempty : cleanHeader (renderedTemplate cfg tmpl) = []) :
    check_license block cfg = none := by
  unfold check_license
  rw [ht]
  simp only [hempty, List.length_nil, List.head?_nil]
  simp

/-- The configuration used by the C10 witness: an empty template string. -/
def cfgEmptyTmpl : Config :=
  { license_header_template := some ""
    licensee := none
    license_year := 2025 }

/-- C10 (witness): the empty template string cleans to zero lines and the
checker panics on a concrete block. -/
theorem check_license_empty_template_panics_witness :
    cleanHeader (renderedTemplate cfgEmptyTmpl "") = []
    ∧ check_license "# x\n" cfgEmptyTmpl = none :=
  ⟨by decide, check_license_empty_template_panics "# x\n" cfgEmptyTmpl "" rfl (by decide)⟩

/-!  Word- and line-level matching predicates for the Header Matcher. -/

/-- One comment/template word pair matches: a `{year}` template word needs
an integer comment word, any other template word must be equal. -/
def pairMatch (p : List Char × List Char) : Bool :=
  if p.2 = yearTok then (parseI64 p.1).isSome else decide (p.1 = p.2)

/-- A block line fully matches a template line: same number of
space-separated words and every aligned pair matches. -/
def fullLineMatch (c tl : List Char) : Bool :=
  decide ((splitSepChar ' ' c).length = (splitSepChar ' ' tl).length)
    && ((splitSepChar ' ' c).zip (splitSepChar ' ' tl)).all pairMatch

/-- A word pair where the template holds `{year}` and the comment word
parses to an integer different from the configured year. -/
def lineOd (yr : Int) (p : List Char × List Char) : Bool :=
  decide (p.2 = yearTok) &&
    (match parseI64 p.1 with
     | some y => decide (y ≠ yr)
     | none => false)

/-- A block line carries an outdated year for the given template line. -/
def lineOutdated (yr : Int) (c tl : List Char) : Bool :=
  ((splitSepChar ' ' c).zip (splitSepChar ' ' tl)).any (lineOd yr)

theorem matchWords_all (yr : Int) :
    ∀ (ps : List (List Char × List Char)) (t m : Nat) (od : Bool),
      ps.all pairMatch = true →
      matchWords t yr ps m od = some (m + ps.length, od || ps.any (lineOd yr)) := by
  intro ps
  induction ps with
  | nil => intro t m od _; simp [matchWords]
  | cons p ps ih =>
    intro t m od hall
    rw [List.all_cons, Bool.and_eq_true] at hall
    by_cases hy : p.2 = yearTok
    · have hs : (parseI64 p.1).isSome = true := by
        have := hall.1
        rwa [pairMatch, if_pos hy] at this
      obtain ⟨y, hy2⟩ := Option.isSome_iff_exists.mp hs
      rw [show matchWords t yr (p :: ps) m od
          = matchWords t yr ps (m + 1) (od || decide (y ≠ yr)) from by
        simp [matchWords, hy, hy2]]
      rw [ih t (m + 1) (od || decide (y ≠ yr)) hall.2]
      have harith : m + 1 + ps.length = m + (p :: ps).length := by simp; omega
      have hlp : lineOd yr p = decide (y ≠ yr) := by simp [lineOd, hy, hy2]
      have hbool : ((od || decide (y ≠ yr)) || ps.any (lineOd yr))
          = (od || (p :: ps).any (lineOd yr)) := by
        rw [List.any_cons, hlp, Bool.or_assoc]
      rw [harith, hbool]
    · have heq : p.1 = p.2 := by
        have := hall.1
        rw [pairMatch, if_neg hy] at this
        exact of_decide_eq_true this
      rw [show matchWords t yr (p :: ps) m od = matchWords t yr ps (m + 1) od from by
        simp [matchWords, hy, heq]]
      rw [ih t (m + 1) od hall.2]
      have harith : m + 1 + ps.length = m + (p :: ps).length := by simp; omega
      have hlp : lineOd yr p = false := by simp [lineOd, hy]
      have hbool : (od || ps.any (lineOd yr)) = (od || (p :: ps).any (lineOd yr)) := by
        rw [List.any_cons, hlp, Bool.false_or]
      rw [harith, hbool]

theorem matchWords_zero (yr : Int) :
    ∀ (ps : List (List Char × List Char)) (m : Nat) (od : Bool),
      ∃ m₂ od₂, matchWords 0 yr ps m od = some (m₂, od₂)
        ∧ m₂ ≤ m + ps.length
        ∧ (ps.all pairMatch = false → m₂ < m + ps.length)
        ∧ (od = true → od₂ = true) := by
  intro ps
  induction ps with
  | nil =>
    intro m od
    exact ⟨m, od, by simp [matchWords], by simp, by simp, fun h => h⟩
  | cons p ps ih =>
    intro m od
    by_cases hy : p.2 = yearTok
    · cases hp : parseI64 p.1 with
      | some y =>
        obtain ⟨m₂, od₂, h1, h2, h3, h4⟩ := ih (m + 1) (od || decide (y ≠ yr))
        refine ⟨m₂, od₂, ?_, by simp; omega, ?_, ?_⟩
        · rw [show matchWords 0 yr (p :: ps) m od
            = matchWords 0 yr ps (m + 1) (od || decide (y ≠ yr)) from by
              simp [matchWords, hy, hp]]
          exact h1
        · intro hfail
          have : ps.all pairMatch = false := by
            rw [List.all_cons] at hfail
            have hpm : pairMatch p = true := by simp [pairMatch, hy, hp]
            rwa [hpm, Bool.true_and] at hfail
          have := h3 this
          simp only [List.length_cons]
          omega
        · intro hod; exact h4 (by simp [hod])
      | none =>
        obtain ⟨m₂, od₂, h1, h2, h3, h4⟩ := ih m od
        refine ⟨m₂, od₂, ?_, by simp; omega, ?_, h4⟩
        · rw [show matchWords 0 yr (p :: ps) m od = matchWords 0 yr ps m od from by
            simp [matchWords, hy, hp]]
          exact h1
        · intro _
          simp only [List.length_cons]
          omega
    · by_cases heq : p.1 = p.2
      · obtain ⟨m₂, od₂, h1, h2, h3, h4⟩ := ih (m + 1) od
        refine ⟨m₂, od₂, ?_, by simp; omega, ?_, h4⟩
        · rw [show matchWords 0 yr (p :: ps) m od = matchWords 0 yr ps (m + 1) od from by
            simp [matchWords, hy, heq]]
          exact h1
        · intro hfail
          have : ps.all pairMatch = false := by
            rw [List.all_cons] at hfail
            have hpm : pairMatch p = true := by simp [pairMatch, hy, heq]
            rwa [hpm, Bool.true_and] at hfail
          have := h3 this
          simp only [List.length_cons]
          omega
      · obtain ⟨m₂, od₂, h1, h2, h3, h4⟩ := ih m od
        refine ⟨m₂, od₂, ?_, by simp; omega, ?_, h4⟩
        · rw [show matchWords 0 yr (p :: ps) m od = matchWords 0 yr ps m od from by
            simp [matchWords, hy, heq]]
          exact h1
        · intro _
          simp only [List.length_cons]
          omega

theorem matchWords_pos_fail (yr : Int) :
    ∀ (ps : List (List Char × List Char)) (m : Nat) (od : Bool) (t : Nat),
      t ≠ 0 → ps.all pairMatch = false → matchWords t yr ps m od = none := by
  intro ps
  induction ps with
  | nil => intro m od t _ hfail; simp at hfail
  | cons p ps ih =>
    intro m od t ht hfail
    rw [List.all_cons] at hfail
    by_cases hy : p.2 = yearTok
    · cases hp : parseI64 p.1 with
      | some y =>
        have hps : ps.all pairMatch = false := by
          have hpm : pairMatch p = true := by simp [pairMatch, hy, hp]
          rwa [hpm, Bool.true_and] at hfail
        rw [show matchWords t yr (p :: ps) m od
            = matchWords t yr ps (m + 1) (od || decide (y ≠ yr)) from by
          simp [matchWords, hy, hp]]
        exact ih (m + 1) (od || decide (y ≠ yr)) t ht hps
      | none => simp [matchWords, hy, hp, ht]
    · by_cases heq : p.1 = p.2
      · have hps : ps.all pairMatch = false := by
          have hpm : pairMatch p = true := by simp [pairMatch, hy, heq]
          rwa [hpm, Bool.true_and] at hfail
        rw [show matchWords t yr (p :: ps) m od = matchWords t yr ps (m + 1) od from by
          simp [matchWords, hy, heq]]
        exact ih (m + 1) od t ht hps
      · simp [matchWords, hy, heq, ht]

theorem checkLoop_cons (tm : List (List Char)) (T : Nat) (yr : Int) (c : List Char)
    (rest : List (List Char)) (idx t st : Nat) (od : Bool) :
    checkLoop tm T yr (c :: rest) idx t st od =
      (if (splitSepChar ' ' c).length ≠ (splitSepChar ' ' (tm.getD t [])).length then
        if t ≠ 0 then .earlyMissing
        else checkLoop tm T yr rest (idx + 1) t st od
      else
        match matchWords t yr ((splitSepChar ' ' c).zip (splitSepChar ' ' (tm.getD t []))) 0 od with
        | none => .earlyMissing
        | some md =>
          if (if md.1 = (splitSepChar ' ' (tm.getD t [])).length then t + 1 else t) ≠ T then
            checkLoop tm T yr rest (idx + 1)
              (if md.1 = (splitSepChar ' ' (tm.getD t [])).length then t + 1 else t)
              (if t = 0 then idx else st) md.2
          else .finished (if md.1 = (splitSepChar ' ' (tm.getD t [])).length then t + 1 else t)
            (if t = 0 then idx else st) md.2) := rfl

theorem checkLoop_skip_one (tm : List (List Char)) (T : Nat) (yr : Int)
    (c : List Char) (rest : List (List Char)) (idx st : Nat) (od : Bool)
    (hT : 0 < T) (hf : fullLineMatch c (tm.getD 0 []) = false) :
    ∃ st₂ od₂, checkLoop tm T yr (c :: rest) idx 0 st od
        = checkLoop tm T yr rest (idx + 1) 0 st₂ od₂
      ∧ (od = true → od₂ = true) := by
  by_cases hlen : (splitSepChar ' ' c).length = (splitSepChar ' ' (tm.getD 0 [])).length
  · have hall : ((splitSepChar ' ' c).zip (splitSepChar ' ' (tm.getD 0 []))).all pairMatch
        = false := by
      rw [fullLineMatch] at hf
      rcases Bool.and_eq_false_iff.mp hf with h | h
      · exact absurd hlen (by simpa using h)
      · exact h
    obtain ⟨m₂, od₂, h1, h2, h3, h4⟩ :=
      matchWords_zero yr ((splitSepChar ' ' c).zip (splitSepChar ' ' (tm.getD 0 []))) 0 od
    have hzlen : ((splitSepChar ' ' c).zip (splitSepChar ' ' (tm.getD 0 []))).length
        = (splitSepChar ' ' (tm.getD 0 [])).length := by
      rw [List.length_zip, hlen, Nat.min_self]
    have hm2 : ¬ (m₂ = (splitSepChar ' ' (tm.getD 0 [])).length) := by
      have := h3 hall
      omega
    refine ⟨idx, od₂, ?_, h4⟩
    rw [checkLoop_cons]
    rw [if_neg (not_not_intro hlen), h1]
    simp only [hm2, if_false, if_pos rfl]
    rw [if_pos (by omega : (0 : Nat) ≠ T)]
    simp
  · refine ⟨st, od, ?_, fun h => h⟩
    rw [checkLoop_cons]
    rw [if_pos hlen, if_neg (by omega : ¬ ((0 : Nat) ≠ 0))]

theorem checkLoop_skip_many (tm : List (List Char)) (T : Nat) (yr : Int) :
    ∀ (pre : List (List Char)) (rest : List (List Char)) (idx st : Nat) (od : Bool),
      (∀ c ∈ pre, fullLineMatch c (tm.getD 0 []) = false) → 0 < T →
      ∃ st₂ od₂, checkLoop tm T yr (pre ++ rest) idx 0 st od
          = checkLoop tm T yr rest (idx + pre.length) 0 st₂ od₂
        ∧ (od = true → od₂ = true) := by
  intro pre
  induction pre with
  | nil =>
    intro rest idx st od _ _
    exact ⟨st, od, by simp, fun h => h⟩
  | cons c pre ih =>
    intro rest idx st od hall hT
    obtain ⟨st₁, od₁, h1, h2⟩ :=
      checkLoop_skip_one tm T yr c (pre ++ rest) idx st od hT (hall c (by simp))
    obtain ⟨st₂, od₂, h3, h4⟩ := ih rest (idx + 1) st₁ od₁
      (fun x hx => hall x (by simp [hx])) hT
    refine ⟨st₂, od₂, ?_, fun h => h4 (h2 h)⟩
    rw [List.cons_append, h1, h3]
    have : idx + 1 + pre.length = idx + (pre.length + 1) := by omega
    rw [this]
    rfl

theorem checkLoop_cons_some (tm : List (List Char)) (T : Nat) (yr : Int) (c : List Char)
    (rest : List (List Char)) (idx t st : Nat) (od : Bool) (m : Nat) (od₂ : Bool)
    (hlen : (splitSepChar ' ' c).length = (splitSepChar ' ' (tm.getD t [])).length)
    (hmw : matchWords t yr ((splitSepChar ' ' c).zip (splitSepChar ' ' (tm.getD t []))) 0 od
      = some (m, od₂)) :
    checkLoop tm T yr (c :: rest) idx t st od =
      if (if m = (splitSepChar ' ' (tm.getD t [])).length then t + 1 else t) ≠ T then
        checkLoop tm T yr rest (idx + 1)
          (if m = (splitSepChar ' ' (tm.getD t [])).length then t + 1 else t)
          (if t = 0 then idx else st) od₂
      else .finished (if m = (splitSepChar ' ' (tm.getD t [])).length then t + 1 else t)
        (if t = 0 then idx else st) od₂ := by
  rw [checkLoop_cons, if_neg (not_not_intro hlen), hmw]

theorem checkLoop_run_body (tm : List (List Char)) (T : Nat) (yr : Int) :
    ∀ (body rest : List (List Char)) (idx t st : Nat) (od : Bool),
      t + body.length = T → 0 < body.length →
      (∀ i (h : i < body.length), fullLineMatch (body.get ⟨i, h⟩) (tm.getD (t + i) []) = true) →
      ∃ od₂, checkLoop tm T yr (body ++ rest) idx t st od
          = .finished T (if t = 0 then idx else st) od₂
        ∧ (od = true → od₂ = true)
        ∧ (∀ i (h : i < body.length),
            lineOutdated yr (body.get ⟨i, h⟩) (tm.getD (t + i) []) = true → od₂ = true) := by
  intro body
  induction body with
  | nil => intro rest idx t st od _ h0; simp at h0
  | cons c body ih =>
    intro rest idx t st od hTlen hpos hmatch
    have hc : fullLineMatch c (tm.getD t []) = true := by
      have := hmatch 0 (by simp)
      simpa using this
    have hlen : (splitSepChar ' ' c).length = (splitSepChar ' ' (tm.getD t [])).length := by
      rw [fullLineMatch, Bool.and_eq_true] at hc
      exact of_decide_eq_true hc.1
    have hall : ((splitSepChar ' ' c).zip (splitSepChar ' ' (tm.getD t []))).all pairMatch
        = true := by
      rw [fullLineMatch, Bool.and_eq_true] at hc
      exact hc.2
    have hzlen : ((splitSepChar ' ' c).zip (splitSepChar ' ' (tm.getD t []))).length
        = (splitSepChar ' ' (tm.getD t [])).length := by
      rw [List.length_zip, hlen, Nat.min_self]
    have hmw := matchWords_all yr
      ((splitSepChar ' ' c).zip (splitSepChar ' ' (tm.getD t []))) t 0 od hall
    cases body with
    | nil =>
      have hT1 : t + 1 = T := by simpa using hTlen
      refine ⟨od || ((splitSepChar ' ' c).zip (splitSepChar ' ' (tm.getD t []))).any (lineOd yr),
        ?_, ?_, ?_⟩
      · rw [show (([c] : List (List Char)) ++ rest) = c :: rest from rfl]
        rw [checkLoop_cons_some tm T yr c rest idx t st od _ _ hlen hmw]
        have hm : (0 + ((splitSepChar ' ' c).zip (splitSepChar ' ' (tm.getD t []))).length)
            = (splitSepChar ' ' (tm.getD t [])).length := by rw [Nat.zero_add, hzlen]
        rw [if_pos hm, if_neg (not_not_intro hT1), hT1]
      · intro h; simp [h]
      · intro i hi
        have hi0 : i = 0 := by simpa using hi
        subst hi0
        intro h
        rw [lineOutdated] at h
        simp only [List.get] at h
        simp only [Nat.add_zero] at h
        rw [h, Bool.or_true]
    | cons d body₂ =>
      have hT2 : (t + 1) + (d :: body₂).length = T := by
        simp only [List.length_cons] at hTlen ⊢
        omega
      have hne : t + 1 ≠ T := by
        simp only [List.length_cons] at hT2
        omega
      obtain ⟨od₂, h1, h2, h3⟩ := ih rest (idx + 1) (t + 1) (if t = 0 then idx else st)
        (od || ((splitSepChar ' ' c).zip (splitSepChar ' ' (tm.getD t []))).any (lineOd yr))
        hT2 (by simp)
        (by
          intro i hi
          have := hmatch (i + 1) (by simp only [List.length_cons] at hi ⊢; omega)
          simp only [List.get] at this ⊢
          have harr : t + (i + 1) = (t + 1) + i := by omega
          rwa [harr] at this)
      refine ⟨od₂, ?_, ?_, ?_⟩
      · rw [List.cons_append]
        rw [checkLoop_cons_some tm T yr c ((d :: body₂) ++ rest) idx t st od _ _ hlen hmw]
        have hm : (0 + ((splitSepChar ' ' c).zip (splitSepChar ' ' (tm.getD t []))).length)
            = (splitSepChar ' ' (tm.getD t [])).length := by rw [Nat.zero_add, hzlen]
        rw [if_pos hm, if_pos hne, h1]
        rw [if_neg (by omega : ¬ (t + 1 = 0))]
      · intro h
        exact h2 (by simp [h])
      · intro i hi
        match i, hi with
        | 0, _ =>
          intro h
          simp only [List.get] at h
          rw [lineOutdated] at h
          simp only [Nat.add_zero] at h
          exact h2 (by rw [h, Bool.or_true])
        | Nat.succ j, hj =>
          intro h
          apply h3 j (by simp only [List.length_cons] at hj ⊢; omega)
          simp only [List.get] at h ⊢
          have harr : (t + 1) + j = t + (j + 1) := by omega
          rw [harr]
          exact h

/-- C1: the commit-sensitive skip/fail rule of the Header Matcher.  For a
block line that fails to match the current template line (differing word
counts, a differing literal word, or a non-integer word aligned with
`{year}`, all captured by `fullLineMatch = false`): before any template
line has fully matched (`t = 0`) the line is skipped and scanning
continues at the same template position (in particular it never produces
`Missing` by itself), while after at least one full match (`t ≠ 0`) the
loop immediately returns `Missing`. -/
theorem checkLoop_skip_before_commit_fail_after (tm : List (List Char)) (T : Nat)
    (yr : Int) (c : List Char) (rest : List (List Char)) (idx t st : Nat) (od : Bool)
    (hT : 0 < T) (hf : fullLineMatch c (tm.getD t []) = false) :
    (t = 0 → ∃ st₂ od₂, checkLoop tm T yr (c :: rest) idx 0 st od
        = checkLoop tm T yr rest (idx + 1) 0 st₂ od₂)
    ∧ (t ≠ 0 → checkLoop tm T yr (c :: rest) idx t st od = .earlyMissing) := by
  constructor
  · intro ht0
    subst ht0
    obtain ⟨st₂, od₂, h1, _⟩ := checkLoop_skip_one tm T yr c rest idx st od hT hf
    exact ⟨st₂, od₂, h1⟩
  · intro ht
    by_cases hlen : (splitSepChar ' ' c).length = (splitSepChar ' ' (tm.getD t [])).length
    · have hall : ((splitSepChar ' ' c).zip (splitSepChar ' ' (tm.getD t []))).all pairMatch
          = false := by
        rw [fullLineMatch] at hf
        rcases Bool.and_eq_false_iff.mp hf with h | h
        · exact absurd hlen (by simpa using h)
        · exact h
      have hmw := matchWords_pos_fail yr
        ((splitSepChar ' ' c).zip (splitSepChar ' ' (tm.getD t []))) 0 od t ht hall
      rw [checkLoop_cons, if_neg (not_not_intro hlen), hmw]
    · rw [checkLoop_cons, if_pos hlen, if_pos ht]

/-- C1 (witness): a two-line template; the non-matching line `# junk` is
skipped at `t = 0` and aborts the match with `Missing` at `t = 1`. -/
theorem checkLoop_skip_fail_witness :
    fullLineMatch "junk".data (["{year} Acme Corp".data, "Second Line".data].getD 0 []) = false
    ∧ fullLineMatch "junk".data (["{year} Acme Corp".data, "Second Line".data].getD 1 []) = false
    ∧ (∃ st₂ od₂, checkLoop ["{year} Acme Corp".data, "Second Line".data] 2 2025
        ["junk".data] 0 0 0 false
        = checkLoop ["{year} Acme Corp".data, "Second Line".data] 2 2025 [] 1 0 st₂ od₂)
    ∧ checkLoop ["{year} Acme Corp".data, "Second Line".data] 2 2025
        ["junk".data] 5 1 3 false = .earlyMissing := by
  refine ⟨by decide, by decide, ?_, ?_⟩
  · exact (checkLoop_skip_before_commit_fail_after
      ["{year} Acme Corp".data, "Second Line".data] 2 2025 "junk".data [] 0 0 0 false
      (by decide) (by decide)).1 rfl
  · exact (checkLoop_skip_before_commit_fail_after
      ["{year} Acme Corp".data, "Second Line".data] 2 2025 "junk".data [] 5 1 3 false
      (by decide) (by decide)).2 (by decide)

/-- C2: when the cleaned block splits as `pre ++ body ++ restC`, no line of
`pre` fully matches the first template line, every line of `body` fully
matches the aligned template line, `body` has exactly the template's line
count, and some `{year}` word of `body` parses to a year different from the
configured one, then `check_license` classifies the block `Outdated` and
returns as replacement span exactly the original block lines
`[pre.length, pre.length + body.length)` joined with newlines. -/
theorem check_license_outdated_exact_span (block : String) (cfg : Config)
    (tmpl : String) (pre body restC : List (List Char))
    (ht : cfg.license_header_template = some tmpl)
    (hsplit : cleanHeader block.data = pre ++ body ++ restC)
    (hT : body.length = (cleanHeader (renderedTemplate cfg tmpl)).length)
    (hTpos : 0 < body.length)
    (hpre : ∀ c ∈ pre,
      fullLineMatch c ((cleanHeader (renderedTemplate cfg tmpl)).getD 0 []) = false)
    (hbody : ∀ i (h : i < body.length),
      fullLineMatch (body.get ⟨i, h⟩)
        ((cleanHeader (renderedTemplate cfg tmpl)).getD i []) = true)
    (hout : ∃ i, ∃ h : i < body.length,
      lineOutdated cfg.license_year (body.get ⟨i, h⟩)
        ((cleanHeader (renderedTemplate cfg tmpl)).getD i []) = true) :
    check_license block cfg
      = some (⟨joinSep '\n' (((rustLinesL block.data).drop pre.length).take body.length)⟩,
          .Outdated) := by
  have hTpos₂ : 0 < (cleanHeader (renderedTemplate cfg tmpl)).length := hT ▸ hTpos
  have hcomlen : (cleanHeader block.data).length
      = pre.length + body.length + restC.length := by
    rw [hsplit]; simp; omega
  have hguard : ¬ ((cleanHeader block.data).length
      < (cleanHeader (renderedTemplate cfg tmpl)).length) := by
    rw [hcomlen]; omega
  obtain ⟨t0, hh⟩ : ∃ x, (cleanHeader (renderedTemplate cfg tmpl)).head? = some x := by
    cases hcl : cleanHeader (renderedTemplate cfg tmpl) with
    | nil => rw [hcl] at hTpos₂; simp at hTpos₂
    | cons a b => exact ⟨a, rfl⟩
  obtain ⟨st₂, od₂, hskip, _⟩ := checkLoop_skip_many
    (cleanHeader (renderedTemplate cfg tmpl))
    (cleanHeader (renderedTemplate cfg tmpl)).length cfg.license_year
    pre (body ++ restC) 0 0 false hpre hTpos₂
  obtain ⟨od₃, hrun, _, hset⟩ := checkLoop_run_body
    (cleanHeader (renderedTemplate cfg tmpl))
    (cleanHeader (renderedTemplate cfg tmpl)).length cfg.license_year
    body restC (0 + pre.length) 0 st₂ od₂
    (by simpa using hT) hTpos
    (by intro i hi; simpa using hbody i hi)
  have hod : od₃ = true := by
    obtain ⟨i, hi, hio⟩ := hout
    exact hset i hi (by simpa using hio)
  have hslice : sliceCk (rustLinesL block.data) (0 + pre.length)
      ((0 + pre.length) + (cleanHeader (renderedTemplate cfg tmpl)).length)
      = some (((rustLinesL block.data).drop pre.length).take body.length) := by
    have hrl : (rustLinesL block.data).length = (cleanHeader block.data).length := by
      rw [cleanHeader, List.length_map]
    rw [sliceCk, if_pos (by rw [hrl, hcomlen]; omega)]
    have harith : ((0 + pre.length) + (cleanHeader (renderedTemplate cfg tmpl)).length)
        - (0 + pre.length) = body.length := by omega
    rw [harith]
    simp
  unfold check_license
  rw [ht]
  simp only [if_neg hguard, hh]
  rw [hsplit, List.append_assoc, hskip, hrun]
  simp only [if_pos rfl, hod, if_true]
  rw [hslice]

/-- C2 (witness): a block with one unrelated leading comment line and one
matching line with year 2024 against the 2025 test configuration is
`Outdated` with span equal to the second original block line. -/
theorem check_license_outdated_exact_span_witness :
    cleanHeader "# junk\n# 2024 Acme Corp\n".data
        = ["junk".data] ++ ["2024 Acme Corp".data] ++ []
    ∧ check_license "# junk\n# 2024 Acme Corp\n" testCfg
        = some (⟨joinSep '\n' (((rustLinesL "# junk\n# 2024 Acme Corp\n".data).drop
            (["junk".data] : List (List Char)).length).take
            (["2024 Acme Corp".data] : List (List Char)).length)⟩, .Outdated) :=
  ⟨by decide,
    check_license_outdated_exact_span "# junk\n# 2024 Acme Corp\n" testCfg
      "# {year} {licensee}" ["junk".data] ["2024 Acme Corp".data] [] rfl (by decide)
      (by decide) (by decide) (by decide)
      (by
        intro i h
        have hi0 : i = 0 := by simpa using h
        subst hi0
        show fullLineMatch "2024 Acme Corp".data
          ((cleanHeader (renderedTemplate testCfg "# {year} {licensee}")).getD 0 []) = true
        decide)
      ⟨0, by decide, by
        show lineOutdated testCfg.license_year "2024 Acme Corp".data
          ((cleanHeader (renderedTemplate testCfg "# {year} {licensee}")).getD 0 []) = true
        decide⟩⟩

/-!  Structural lemmas about the field splitter and line functions. -/

theorem splitSepChar_ne_nil (sep : Char) (s : List Char) : splitSepChar sep s ≠ [] := by
  induction s with
  | nil => simp [splitSepChar]
  | cons c rest ih =>
    by_cases hc : c = sep
    · simp [splitSepChar, hc]
    · simp only [splitSepChar, if_neg hc]
      cases h : splitSepChar sep rest with
      | nil => simp
      | cons f fs => simp

theorem splitSepChar_append_sep (sep : Char) :
    ∀ (u v : List Char), splitSepChar sep (u ++ sep :: v)
      = splitSepChar sep u ++ splitSepChar sep v := by
  intro u
  induction u with
  | nil => intro v; simp [splitSepChar]
  | cons c u ih =>
    intro v
    by_cases hc : c = sep
    · simp only [List.cons_append, splitSepChar, if_pos hc, List.append_eq, ih,
        List.nil_append]
    · simp only [List.cons_append, splitSepChar, if_neg hc, List.append_eq]
      obtain ⟨f, fs, hffs⟩ : ∃ f fs, splitSepChar sep u = f :: fs := by
        cases h : splitSepChar sep u with
        | nil => exact absurd h (splitSepChar_ne_nil sep u)
        | cons f fs => exact ⟨f, fs, rfl⟩
      rw [ih, hffs]
      simp

theorem not_mem_of_mem_splitSepChar (sep : Char) :
    ∀ (s : List Char) (f : List Char), f ∈ splitSepChar sep s → sep ∉ f := by
  intro s
  induction s with
  | nil =>
    intro f hf
    simp [splitSepChar] at hf
    simp [hf]
  | cons c rest ih =>
    intro f hf
    by_cases hc : c = sep
    · simp only [splitSepChar, if_pos hc, List.mem_cons] at hf
      rcases hf with h | h
      · simp [h]
      · exact ih f h
    · simp only [splitSepChar, if_neg hc] at hf
      obtain ⟨g, gs, hggs⟩ : ∃ g gs, splitSepChar sep rest = g :: gs := by
        cases h : splitSepChar sep rest with
        | nil => exact absurd h (splitSepChar_ne_nil sep rest)
        | cons g gs => exact ⟨g, gs, rfl⟩
      rw [hggs] at hf
      rcases List.mem_cons.mp hf with h | h
      · subst h
        intro hmem
        rcases List.mem_cons.mp hmem with h2 | h2
        · exact hc h2.symm
        · exact ih g (by rw [hggs]; simp) h2
      · exact ih f (by rw [hggs]; simp [h])

theorem mem_of_mem_mem_splitSepChar (sep : Char) :
    ∀ (s : List Char) (f : List Char) (c : Char),
      f ∈ splitSepChar sep s → c ∈ f → c ∈ s := by
  intro s
  induction s with
  | nil =>
    intro f c hf hc
    simp [splitSepChar] at hf
    subst hf
    simp at hc
  | cons d rest ih =>
    intro f c hf hc
    by_cases hd : d = sep
    · simp only [splitSepChar, if_pos hd, List.mem_cons] at hf
      rcases hf with h | h
      · subst h; simp at hc
      · exact List.mem_cons_of_mem d (ih f c h hc)
    · simp only [splitSepChar, if_neg hd] at hf
      obtain ⟨g, gs, hggs⟩ : ∃ g gs, splitSepChar sep rest = g :: gs := by
        cases h : splitSepChar sep rest with
        | nil => exact absurd h (splitSepChar_ne_nil sep rest)
        | cons g gs => exact ⟨g, gs, rfl⟩
      rw [hggs] at hf
      rcases List.mem_cons.mp hf with h | h
      · subst h
        rcases List.mem_cons.mp hc with h2 | h2
        · simp [h2]
        · exact List.mem_cons_of_mem d (ih g c (by rw [hggs]; simp) h2)
      · exact List.mem_cons_of_mem d (ih f c (by rw [hggs]; simp [h]) hc)

theorem splitSepChar_glueNL :
    ∀ (ls : List (List Char)), (∀ l ∈ ls, ('\n' : Char) ∉ l) →
      splitSepChar '\n' (glueNL ls) = ls ++ [[]] := by
  intro ls
  induction ls with
  | nil => intro _; simp [glueNL, splitSepChar]
  | cons l rest ih =>
    intro h
    rw [glueNL, show (l ++ '\n' :: glueNL rest) = l ++ '\n' :: glueNL rest from rfl]
    rw [splitSepChar_append_sep '\n' l (glueNL rest)]
    have hl : splitSepChar '\n' l = [l] := by
      have hnl : ('\n' : Char) ∉ l := h l (by simp)
      clear ih h
      induction l with
      | nil => simp [splitSepChar]
      | cons c cs ihl =>
        have hc : ¬ (c = '\n') := by
          intro hcc; exact hnl (by simp [hcc])
        rw [splitSepChar, if_neg hc, ihl (by intro hm; exact hnl (by simp [hm]))]
    rw [hl, ih (by intro x hx; exact h x (by simp [hx]))]
    simp

theorem mem_of_getLastC {α : Type} : ∀ (l : List α) (c : α), l.getLast? = some c → c ∈ l := by
  intro l
  induction l with
  | nil => intro c h; simp at h
  | cons a as ih =>
    intro c h
    cases as with
    | nil =>
      simp only [List.getLast?_singleton, Option.some.injEq] at h
      simp [h]
    | cons b bs =>
      rw [List.getLast?_cons_cons] at h
      exact List.mem_cons_of_mem a (ih c h)

theorem stripCR_of_not_mem (l : List Char) (h : ('\r' : Char) ∉ l) : stripCR l = l := by
  rw [stripCR]
  cases hg : l.getLast? with
  | none => simp
  | some c =>
    have hc : c ∈ l := mem_of_getLastC l c hg
    have : ¬ (c = '\r') := by intro hcc; subst hcc; exact h hc
    simp [this]

theorem rustLinesL_glueNL (ls : List (List Char))
    (h : ∀ l ∈ ls, ('\n' : Char) ∉ l ∧ ('\r' : Char) ∉ l) :
    rustLinesL (glueNL ls) = ls := by
  rw [rustLinesL]
  simp only [splitSepChar_glueNL ls (fun l hl => (h l hl).1)]
  rw [List.dropLast_concat]
  have hmap : ls.map stripCR = ls := by
    induction ls with
    | nil => rfl
    | cons l rest ih =>
      rw [List.map_cons, stripCR_of_not_mem l (h l (by simp)).2,
        ih (fun x hx => h x (by simp [hx]))]
  rw [hmap]
  have hlast : (ls ++ ([[]] : List (List Char))).getLast? = some [] :=
    List.getLast?_concat ls
  rw [hlast]
  exact List.append_nil ls

theorem mem_of_mem_takeWhileC {α : Type} (p : α → Bool) :
    ∀ (l : List α) (x : α), x ∈ l.takeWhile p → x ∈ l := by
  intro l
  induction l with
  | nil => intro x hx; simp [List.takeWhile] at hx
  | cons a as ih =>
    intro x hx
    rw [List.takeWhile_cons] at hx
    by_cases hp : p a = true
    · rw [if_pos hp] at hx
      rcases List.mem_cons.mp hx with h | h
      · simp [h]
      · exact List.mem_cons_of_mem a (ih x h)
    · rw [if_neg hp] at hx
      simp at hx

theorem stripCR_subset (f : List Char) : ∀ c ∈ stripCR f, c ∈ f := by
  intro c hc
  rw [stripCR] at hc
  by_cases hg : f.getLast? = some '\r'
  · rw [if_pos hg] at hc
    exact List.dropLast_subset f hc
  · rwa [if_neg hg] at hc

theorem exists_field_of_mem_rustLinesL (s l : List Char) (hl : l ∈ rustLinesL s) :
    ∃ f, f ∈ splitSepChar '\n' s ∧ (l = stripCR f ∨ l = f) := by
  rw [rustLinesL] at hl
  simp only [List.mem_append] at hl
  rcases hl with h | h
  · obtain ⟨f, hf, hfl⟩ := List.mem_map.mp h
    exact ⟨f, List.dropLast_subset _ hf, Or.inl hfl.symm⟩
  · cases hg : (splitSepChar '\n' s).getLast? with
    | none => rw [hg] at h; simp at h
    | some g =>
      cases g with
      | nil => rw [hg] at h; simp at h
      | cons a as =>
        rw [hg] at h
        simp only [List.mem_singleton] at h
        exact ⟨a :: as, mem_of_getLastC _ _ hg, Or.inr h⟩

theorem chars_of_mem_rustLinesL (s l : List Char) (c : Char)
    (hl : l ∈ rustLinesL s) (hc : c ∈ l) : c ∈ s := by
  obtain ⟨f, hf, hlf⟩ := exists_field_of_mem_rustLinesL s l hl
  rcases hlf with h | h
  · exact mem_of_mem_mem_splitSepChar '\n' s f c hf (stripCR_subset f c (h ▸ hc))
  · exact mem_of_mem_mem_splitSepChar '\n' s f c hf (h ▸ hc)

theorem not_nl_of_mem_rustLinesL (s l : List Char) (hl : l ∈ rustLinesL s) :
    ('\n' : Char) ∉ l := by
  obtain ⟨f, hf, hlf⟩ := exists_field_of_mem_rustLinesL s l hl
  have hnl := not_mem_of_mem_splitSepChar '\n' s f hf
  rcases hlf with h | h
  · subst h; intro hmem; exact hnl (stripCR_subset f '\n' hmem)
  · subst h; exact hnl

theorem eq_dropLast_concat_of_getLast {α : Type} :
    ∀ (l : List α) (c : α), l.getLast? = some c → l = l.dropLast ++ [c] := by
  intro l
  induction l with
  | nil => intro c h; simp at h
  | cons a as ih =>
    intro c h
    cases as with
    | nil =>
      simp only [List.getLast?_singleton, Option.some.injEq] at h
      simp [h]
    | cons b bs =>
      rw [List.getLast?_cons_cons] at h
      have h2 := ih c h
      calc a :: b :: bs = a :: ((b :: bs).dropLast ++ [c]) := by rw [← h2]
        _ = (a :: b :: bs).dropLast ++ [c] := rfl

theorem rustLinesL_append_newline (b y : List Char) (hb : b.getLast? = some '\n') :
    rustLinesL (b ++ y) = rustLinesL b ++ rustLinesL y := by
  obtain ⟨b', hb'⟩ : ∃ b', b = b' ++ ['\n'] :=
    ⟨b.dropLast, eq_dropLast_concat_of_getLast b '\n' hb⟩
  subst hb'
  have happ : (b' ++ ['\n']) ++ y = b' ++ '\n' :: y := by
    rw [List.append_assoc]; rfl
  have hfields : splitSepChar '\n' ((b' ++ ['\n']) ++ y)
      = splitSepChar '\n' b' ++ splitSepChar '\n' y := by
    rw [happ, splitSepChar_append_sep]
  have hfb : splitSepChar '\n' (b' ++ ['\n'])
      = splitSepChar '\n' b' ++ [[]] := by
    rw [show (b' ++ ['\n']) = b' ++ '\n' :: ([] : List Char) from rfl,
      splitSepChar_append_sep]
    rfl
  have hyne : splitSepChar '\n' y ≠ [] := splitSepChar_ne_nil '\n' y
  rw [rustLinesL, rustLinesL, rustLinesL]
  simp only [hfields, hfb]
  rw [List.dropLast_append_of_ne_nil (splitSepChar '\n' b') hyne, List.dropLast_concat,
    List.getLast?_append_of_ne_nil (splitSepChar '\n' b') hyne, List.getLast?_concat]
  simp only [List.map_append]
  rw [List.append_assoc]
  simp

theorem ffcAux_pre_fst :
    ∀ (pre rest : List (List Char)) (ia : Nat),
      (∀ l ∈ pre, isHashbang l = true ∨ isBlank l = true) →
      (ffcAux (pre ++ rest) [] ia).1 = (ffcAux rest [] 0).1 := by
  intro pre
  induction pre with
  | nil =>
    intro rest ia _
    rw [List.nil_append, ffcAux_shift rest ia]
  | cons l pre ih =>
    intro rest ia h
    by_cases hhb : isHashbang l = true
    · rw [show ffcAux ((l :: pre) ++ rest) [] ia
          = ffcAux (pre ++ rest) [] (ia + bytelen l + 1) from by simp [ffcAux, hhb]]
      exact ih rest _ (fun x hx => h x (by simp [hx]))
    · have hhbf : isHashbang l = false := by revert hhb; cases isHashbang l <;> simp
      have hbl : isBlank l = true := by
        rcases h l (by simp) with h1 | h1
        · exact absurd h1 hhb
        · exact h1
      rw [show ffcAux ((l :: pre) ++ rest) [] ia = ffcAux (pre ++ rest) [] ia from by
        simp [ffcAux, hhbf, hbl]]
      exact ih rest ia (fun x hx => h x (by simp [hx]))

/-- Unfolding equation for `check_license` once the template is known. -/
theorem check_license_eq (block : String) (cfg : Config) (tmpl : String)
    (ht : cfg.license_header_template = some tmpl) :
    check_license block cfg =
      (if (cleanHeader block.data).length < (cleanHeader (renderedTemplate cfg tmpl)).length
       then some ("", .Missing)
       else
        match (cleanHeader (renderedTemplate cfg tmpl)).head? with
        | none => none
        | some _ =>
          match checkLoop (cleanHeader (renderedTemplate cfg tmpl))
              (cleanHeader (renderedTemplate cfg tmpl)).length cfg.license_year
              (cleanHeader block.data) 0 0 0 false with
          | .earlyMissing => some ("", .Missing)
          | .finished t st od =>
            if t = (cleanHeader (renderedTemplate cfg tmpl)).length then
              if od then
                match sliceCk (rustLinesL block.data) st (st + t) with
                | none => none
                | some sl => some (⟨joinSep '\n' sl⟩, .Outdated)
              else some ("", .Found)
            else some ("", .Missing)) := by
  unfold check_license
  rw [ht]

/-- Lines of content that may sit above the rewritten header without
disturbing the second extraction: nothing, or complete lines that are all
interpreter directives or blank. -/
def goodAbove (b : List Char) : Bool :=
  b.isEmpty || (decide (b.getLast? = some '\n')
    && (rustLinesL b).all (fun l => isHashbang l || isBlank l))

theorem goodAbove_cases (b : List Char) (h : goodAbove b = true) :
    b = [] ∨ (b.getLast? = some '\n'
      ∧ ∀ l ∈ rustLinesL b, isHashbang l = true ∨ isBlank l = true) := by
  rw [goodAbove, Bool.or_eq_true] at h
  rcases h with h | h
  · left
    exact List.isEmpty_iff.mp h
  · right
    rw [Bool.and_eq_true] at h
    refine ⟨of_decide_eq_true h.1, ?_⟩
    intro l hl
    have := List.all_eq_true.mp h.2 l hl
    rwa [Bool.or_eq_true] at this

theorem checkLoop_test_found (cs : List (List Char)) :
    checkLoop ["{year} Acme Corp".data] 1 2025 ("2025 Acme Corp".data :: cs) 0 0 0 false
      = .finished 1 0 false := by
  rw [checkLoop_cons_some ["{year} Acme Corp".data] 1 2025 "2025 Acme Corp".data cs
    0 0 0 false 3 false (by decide) (by decide)]
  have hlen3 : (splitSepChar ' '
      ((["{year} Acme Corp".data] : List (List Char)).getD 0 [])).length = 3 := by decide
  rw [hlen3]
  simp

/-- Any block whose first cleaned line is `2025 Acme Corp` is classified
`Found` against the test configuration (the single-line template matches
on the first line and the loop stops). -/
theorem check_license_found_first_line (block : String) (cs : List (List Char))
    (hcs : cleanHeader block.data = "2025 Acme Corp".data :: cs) :
    check_license block testCfg = some ("", .Found) := by
  rw [check_license_eq block testCfg "# {year} {licensee}" rfl]
  have htm : cleanHeader (renderedTemplate testCfg "# {year} {licensee}")
      = ["{year} Acme Corp".data] := by decide
  rw [htm, hcs]
  rw [if_neg (by simp : ¬ (("2025 Acme Corp".data :: cs).length
    < (["{year} Acme Corp".data] : List (List Char)).length))]
  have hyear : testCfg.license_year = 2025 := rfl
  have hlen1 : ((["{year} Acme Corp".data] : List (List Char))).length = 1 := rfl
  rw [hyear, hlen1, checkLoop_test_found cs]
  simp

/-- After the Header Writer places the rendered test header after an
acceptable prefix (nothing, or complete hashbang/blank lines), the second
extraction yields a block starting with the header line and the second
check classifies `Found`. -/
theorem second_pass_found (b rest₂ : List Char)
    (hb : goodAbove b = true)
    (hnr : ∀ c ∈ rest₂, c ≠ '\r') :
    check_license (find_first_comment ⟨b ++ (testHdr.data ++ rest₂)⟩).1 testCfg
      = some ("", .Found) := by
  have hhdr : rustLinesL (testHdr.data ++ rest₂)
      = "# 2025 Acme Corp".data :: rustLinesL rest₂ := by
    rw [show testHdr.data = "# 2025 Acme Corp".data ++ ['\n'] from by decide]
    rw [rustLinesL_append_newline ("# 2025 Acme Corp".data ++ ['\n']) rest₂ (by decide)]
    rw [show rustLinesL ("# 2025 Acme Corp".data ++ ['\n'])
      = ["# 2025 Acme Corp".data] from by decide]
    rfl
  have hlines : rustLinesL (b ++ (testHdr.data ++ rest₂))
      = rustLinesL b ++ ("# 2025 Acme Corp".data :: rustLinesL rest₂) := by
    rcases goodAbove_cases b hb with hb0 | hbe
    · subst hb0
      rw [List.nil_append, hhdr, show rustLinesL ([] : List Char) = [] from by decide,
        List.nil_append]
    · rw [rustLinesL_append_newline b _ hbe.1, hhdr]
  have hpre : ∀ l ∈ rustLinesL b, isHashbang l = true ∨ isBlank l = true := by
    rcases goodAbove_cases b hb with hb0 | hbe
    · subst hb0
      intro l hl
      rw [show rustLinesL ([] : List Char) = [] from by decide] at hl
      cases hl
    · exact hbe.2
  have hblock : (find_first_comment ⟨b ++ (testHdr.data ++ rest₂)⟩).1.data
      = (ffcAux (rustLinesL (b ++ (testHdr.data ++ rest₂))) [] 0).1 := rfl
  have hstep2 : ffcAux ("# 2025 Acme Corp".data :: rustLinesL rest₂) [] 0
      = ffcAux (rustLinesL rest₂) ("# 2025 Acme Corp".data ++ ['\n']) 0 := by
    rw [show ffcAux ("# 2025 Acme Corp".data :: rustLinesL rest₂) [] 0
        = ffcAux (rustLinesL rest₂) (([] : List Char) ++ "# 2025 Acme Corp".data ++ ['\n']) 0
      from by
        simp only [ffcAux, List.isEmpty_nil, if_pos,
          show isHashbang "# 2025 Acme Corp".data = false from by decide,
          show isBlank "# 2025 Acme Corp".data = false from by decide,
          show isComment "# 2025 Acme Corp".data = true from by decide]
        simp]
    rw [List.nil_append]
  have hstep3 := ffcAux_state_nonempty (rustLinesL rest₂)
    ("# 2025 Acme Corp".data ++ ['\n']) 0 (by simp)
  have hglue : ("# 2025 Acme Corp".data ++ ['\n'])
      ++ glueNL ((rustLinesL rest₂).takeWhile (fun l => isComment l))
      = glueNL ("# 2025 Acme Corp".data
          :: (rustLinesL rest₂).takeWhile (fun l => isComment l)) := by
    rw [glueNL, List.append_assoc]
    rfl
  have hblock₂ : (find_first_comment ⟨b ++ (testHdr.data ++ rest₂)⟩).1.data
      = glueNL ("# 2025 Acme Corp".data
          :: (rustLinesL rest₂).takeWhile (fun l => isComment l)) := by
    rw [hblock, hlines, ffcAux_pre_fst (rustLinesL b) _ 0 hpre, hstep2, hstep3, ← hglue]
  have hBL : rustLinesL (find_first_comment ⟨b ++ (testHdr.data ++ rest₂)⟩).1.data
      = "# 2025 Acme Corp".data
          :: (rustLinesL rest₂).takeWhile (fun l => isComment l) := by
    rw [hblock₂]
    apply rustLinesL_glueNL
    intro l hl
    rcases List.mem_cons.mp hl with h | h
    · subst h
      exact ⟨by decide, by decide⟩
    · have hmem : l ∈ rustLinesL rest₂ :=
        mem_of_mem_takeWhileC (fun l => isComment l) (rustLinesL rest₂) l h
      constructor
      · exact not_nl_of_mem_rustLinesL rest₂ l hmem
      · intro hm
        exact hnr '\r' (chars_of_mem_rustLinesL rest₂ l '\r' hmem hm) rfl
  have hclean : cleanHeader (find_first_comment ⟨b ++ (testHdr.data ++ rest₂)⟩).1.data
      = "2025 Acme Corp".data
          :: ((rustLinesL rest₂).takeWhile (fun l => isComment l)).map
            (fun line => trimChars (line.dropWhile (fun c => c = '#'))) := by
    rw [cleanHeader, hBL, List.map_cons,
      show trimChars ("# 2025 Acme Corp".data.dropWhile (fun c => c = '#'))
        = "2025 Acme Corp".data from by decide]
  exact check_license_found_first_line _ _ hclean

theorem isPrefixC_exists : ∀ (p l : List Char), isPrefixC p l = true ↔ ∃ t, l = p ++ t := by
  intro p
  induction p with
  | nil => intro l; simp [isPrefixC]
  | cons a as ih =>
    intro l
    cases l with
    | nil =>
      simp only [isPrefixC, List.cons_append]
      constructor
      · intro h; cases h
      · intro ⟨t, ht⟩; cases ht
    | cons b bs =>
      rw [isPrefixC, Bool.and_eq_true]
      constructor
      · intro h
        obtain ⟨t, ht⟩ := (ih bs).mp h.2
        have hab : a = b := of_decide_eq_true h.1
        exact ⟨t, by rw [ht, hab]; rfl⟩
      · intro ⟨t, ht⟩
        rw [List.cons_append] at ht
        injection ht with h1 h2
        exact ⟨decide_eq_true h1.symm, (ih bs).mpr ⟨t, h2⟩⟩

theorem findSplit_isPrefix (needle hay : List Char)
    (hp : isPrefixC needle hay = true) :
    findSplit needle hay = some ([], hay.drop needle.length) := by
  cases hay with
  | nil =>
    rw [findSplit, if_pos hp]
    simp
  | cons c rest => rw [findSplit, if_pos hp]

theorem findSplit_eq_decomp (needle : List Char) :
    ∀ (hay b a : List Char), findSplit needle hay = some (b, a)
      → hay = b ++ needle ++ a := by
  intro hay
  induction hay with
  | nil =>
    intro b a h
    rw [findSplit] at h
    by_cases hp : isPrefixC needle [] = true
    · rw [if_pos hp] at h
      obtain ⟨t, ht⟩ := (isPrefixC_exists needle []).mp hp
      have hn : needle = [] := by
        cases needle with
        | nil => rfl
        | cons x xs => cases ht
      simp only [Option.some.injEq, Prod.mk.injEq] at h
      rw [← h.1, ← h.2, hn]
      rfl
    · rw [if_neg hp] at h
      cases h
  | cons c rest ih =>
    intro b a h
    rw [findSplit] at h
    by_cases hp : isPrefixC needle (c :: rest) = true
    · rw [if_pos hp] at h
      obtain ⟨t, ht⟩ := (isPrefixC_exists needle (c :: rest)).mp hp
      simp only [Option.some.injEq, Prod.mk.injEq] at h
      rw [← h.1, ← h.2, ht, List.drop_left]
      rfl
    · rw [if_neg hp] at h
      cases hfs : findSplit needle rest with
      | none => rw [hfs] at h; cases h
      | some q =>
        rw [hfs] at h
        simp only [Option.map_some', Option.some.injEq, Prod.mk.injEq] at h
        have hrest := ih q.1 q.2 (by rw [hfs])
        rw [← h.1, ← h.2, hrest]
        rfl

theorem findSplit_of_decomp (needle : List Char) :
    ∀ (p q : List Char), ∃ b a, findSplit needle (p ++ needle ++ q) = some (b, a) := by
  intro p
  induction p with
  | nil =>
    intro q
    refine ⟨[], q, ?_⟩
    rw [List.nil_append,
      findSplit_isPrefix needle (needle ++ q) ((isPrefixC_exists needle _).mpr ⟨q, rfl⟩),
      List.drop_left]
  | cons c p ih =>
    intro q
    rw [show ((c :: p) ++ needle ++ q) = c :: (p ++ needle ++ q) from by simp]
    by_cases hp : isPrefixC needle (c :: (p ++ needle ++ q)) = true
    · exact ⟨[], (c :: (p ++ needle ++ q)).drop needle.length,
        findSplit_isPrefix needle _ hp⟩
    · obtain ⟨b, a, hba⟩ := ih q
      refine ⟨c :: b, a, ?_⟩
      rw [findSplit, if_neg hp, hba]
      rfl

/-- C8 (counterexample): Fix mode is not idempotent.  When the hashbang
line happens to contain the span text, the exact substring search of the
Replace step splits inside the hashbang line, the rewritten header lands
mid-line, and the second pass classifies the file `Outdated` again
(needs-fix true) instead of `Found`. -/
theorem fix_mode_not_idempotent :
    format_header testCfg = some testHdr
    ∧ format_file "#!a # 2024 Acme Corp\n# 2024 Acme Corp\n" testCfg testHdr false
        = some (true, "#!a # 2025 Acme Corp\n\n# 2024 Acme Corp\n")
    ∧ (format_file "#!a # 2025 Acme Corp\n\n# 2024 Acme Corp\n" testCfg testHdr false).map
        Prod.fst = some true := by
  refine ⟨by decide, by decide, by decide⟩

theorem format_file_found_eq (content : String) (cfg : Config) (hdr rep : String)
    (h : check_license (find_first_comment content).1 cfg = some (rep, .Found)) :
    format_file content cfg hdr false = some (false, content) := by
  unfold format_file
  rw [h]

theorem format_file_missing_eq (content : String) (cfg : Config) (hdr rep : String)
    (h : check_license (find_first_comment content).1 cfg = some (rep, .Missing)) :
    format_file content cfg hdr false
      = (insert_header content hdr (find_first_comment content).2).map
          (fun c => (true, c)) := by
  unfold format_file
  rw [h]
  rfl

theorem format_file_outdated_eq (content : String) (cfg : Config) (hdr rep : String)
    (h : check_license (find_first_comment content).1 cfg = some (rep, .Outdated)) :
    format_file content cfg hdr false
      = (update_header content rep hdr).map (fun c => (true, c)) := by
  unfold format_file
  rw [h]
  rfl

/-!  Structure of the rendered header and the generalised second pass. -/

theorem mem_of_mem_dropWhileC {α : Type} (p : α → Bool) :
    ∀ (l : List α) (x : α), x ∈ l.dropWhile p → x ∈ l := by
  intro l
  induction l with
  | nil => intro x hx; simp [List.dropWhile] at hx
  | cons a as ih =>
    intro x hx
    rw [List.dropWhile_cons] at hx
    by_cases hp : p a = true
    · rw [if_pos hp] at hx
      exact List.mem_cons_of_mem a (ih x hx)
    · rw [if_neg hp] at hx
      exact hx

theorem trimChars_subset (l : List Char) : ∀ c ∈ trimChars l, c ∈ l := by
  intro c hc
  rw [trimChars, List.mem_reverse] at hc
  have h1 := mem_of_mem_dropWhileC Char.isWhitespace _ c hc
  rw [List.mem_reverse] at h1
  exact mem_of_mem_dropWhileC Char.isWhitespace l c h1

theorem takeWhileC_append_all (p : List Char → Bool) :
    ∀ (A B : List (List Char)), (∀ a ∈ A, p a = true) →
      (A ++ B).takeWhile p = A ++ B.takeWhile p := by
  intro A
  induction A with
  | nil => intro B _; rfl
  | cons a A ih =>
    intro B h
    rw [List.cons_append, List.takeWhile_cons, if_pos (h a (by simp)),
      ih B (fun x hx => h x (by simp [hx]))]
    rfl

theorem glueNL_append : ∀ (A B : List (List Char)),
    glueNL (A ++ B) = glueNL A ++ glueNL B := by
  intro A
  induction A with
  | nil => intro B; rfl
  | cons a A ih =>
    intro B
    rw [List.cons_append, glueNL, ih, glueNL]
    simp [List.append_assoc]

theorem mem_glueNL_of_mem : ∀ (ls : List (List Char)) (l : List Char) (c : Char),
    l ∈ ls → c ∈ l → c ∈ glueNL ls := by
  intro ls
  induction ls with
  | nil => intro l c hl _; cases hl
  | cons a as ih =>
    intro l c hl hc
    rw [glueNL]
    rcases List.mem_cons.mp hl with h | h
    · subst h
      exact List.mem_append.mpr (Or.inl hc)
    · exact List.mem_append.mpr (Or.inr (List.mem_cons_of_mem '\n' (ih l c h hc)))

theorem glueNL_getLast : ∀ (ls : List (List Char)), ls ≠ [] →
    (glueNL ls).getLast? = some '\n' := by
  intro ls
  induction ls with
  | nil => intro h; exact absurd rfl h
  | cons a as ih =>
    intro _
    rw [glueNL]
    cases as with
    | nil =>
      rw [show glueNL ([] : List (List Char)) = [] from rfl]
      exact List.getLast?_concat a
    | cons b bs =>
      have hgne : glueNL (b :: bs) ≠ [] := by simp [glueNL]
      rw [show (a ++ '\n' :: glueNL (b :: bs)) = a ++ ['\n'] ++ glueNL (b :: bs) from by
        simp [List.append_assoc]]
      rw [List.getLast?_append_of_ne_nil (a ++ ['\n']) hgne]
      exact ih (by simp)

/-- One line of the rendered header: the trimmed template line with the
comment marker prepended when missing (the body of the map in
`format_header`, without the appended newline). -/
def renderLine (line : List Char) : List Char :=
  let l := trimChars line
  if !isComment l then '#' :: ' ' :: l else l

theorem renderLine_isComment (line : List Char) : isComment (renderLine line) = true := by
  by_cases h : isComment (trimChars line) = true
  · rw [show renderLine line = trimChars line from by simp [renderLine, h]]
    exact h
  · have hf : isComment (trimChars line) = false := by
      revert h; cases isComment (trimChars line) <;> simp
    rw [show renderLine line = '#' :: ' ' :: trimChars line from by simp [renderLine, hf]]
    rfl

theorem renderLine_no_nl (line : List Char) (h : ('\n' : Char) ∉ line) :
    ('\n' : Char) ∉ renderLine line := by
  intro hm
  by_cases hc : isComment (trimChars line) = true
  · rw [show renderLine line = trimChars line from by simp [renderLine, hc]] at hm
    exact h (trimChars_subset line '\n' hm)
  · have hf : isComment (trimChars line) = false := by
      revert hc; cases isComment (trimChars line) <;> simp
    rw [show renderLine line = '#' :: ' ' :: trimChars line from by
      simp [renderLine, hf]] at hm
    rcases List.mem_cons.mp hm with h1 | h1
    · exact absurd h1 (by decide)
    · rcases List.mem_cons.mp h1 with h2 | h2
      · exact absurd h2 (by decide)
      · exact h (trimChars_subset line '\n' h2)

theorem flatten_rendered : ∀ (L : List (List Char)),
    (L.map (fun line =>
      let l := trimChars line
      if !isComment l then '#' :: ' ' :: l ++ ['\n'] else l ++ ['\n'])).flatten
    = glueNL (L.map renderLine) := by
  intro L
  induction L with
  | nil => rfl
  | cons x xs ih =>
    rw [List.map_cons, List.flatten_cons, ih, List.map_cons, glueNL]
    simp only []
    by_cases h : isComment (trimChars x) = true
    · rw [if_neg (by simp [h] : ¬ ((!isComment (trimChars x)) = true))]
      rw [show renderLine x = trimChars x from by simp [renderLine, h]]
      simp [List.append_assoc]
    · have hf : isComment (trimChars x) = false := by
        revert h; cases isComment (trimChars x) <;> simp
      rw [if_pos (by simp [hf] : (!isComment (trimChars x)) = true)]
      rw [show renderLine x = '#' :: ' ' :: trimChars x from by simp [renderLine, hf]]
      simp [List.append_assoc]

theorem format_header_structure (cfg : Config) (hdr : String)
    (hh : format_header cfg = some hdr) :
    ∃ L : List (List Char), hdr.data = glueNL (L.map renderLine)
      ∧ ∀ l ∈ L, ('\n' : Char) ∉ l := by
  unfold format_header at hh
  split at hh
  · cases hh
  · simp only [] at hh
    split at hh
    · cases hh
    · rename_i hsub hal
      simp only [Option.some.injEq] at hh
      refine ⟨rustLinesL (replaceAll "{year}".data (toString cfg.license_year).data hsub),
        ?_, fun l hl => not_nl_of_mem_rustLinesL _ l hl⟩
      rw [← hh]
      exact (flatten_rendered _).symm ▸ rfl

theorem isComment_exists (l : List Char) (h : isComment l = true) :
    ∃ rest, l = '#' :: rest := by
  unfold isComment at h
  split at h
  · rename_i rest
    exact ⟨rest, rfl⟩
  · cases h

theorem isBlank_false_of_isComment (l : List Char) (h : isComment l = true) :
    isBlank l = false := by
  obtain ⟨rest, hrest⟩ := isComment_exists l h
  subst hrest
  have hdw : ('#' :: rest).dropWhile Char.isWhitespace = '#' :: rest := by
    rw [List.dropWhile_cons, if_neg (by decide)]
  have hne : ((('#' :: rest).dropWhile Char.isWhitespace).reverse.dropWhile
      Char.isWhitespace).reverse ≠ [] := by
    rw [hdw]
    intro hc
    rw [List.reverse_eq_nil_iff] at hc
    have hall := List.dropWhile_eq_nil_iff.mp hc
    have hmem : ('#' : Char) ∈ ('#' :: rest).reverse := by
      rw [List.mem_reverse]; simp
    exact absurd (hall '#' hmem) (by decide)
  have hbt : isBlank ('#' :: rest) ≠ true := by
    intro hc
    rw [isBlank, trimChars] at hc
    exact hne (List.isEmpty_iff.mp hc)
  revert hbt
  cases isBlank ('#' :: rest) <;> simp

theorem checkLoop_append_finished (tm : List (List Char)) (T : Nat) (yr : Int) :
    ∀ (L extra : List (List Char)) (idx t st : Nat) (od : Bool) (st₂ : Nat) (od₂ : Bool),
      t < T →
      checkLoop tm T yr L idx t st od = .finished T st₂ od₂ →
      checkLoop tm T yr (L ++ extra) idx t st od = .finished T st₂ od₂ := by
  intro L
  induction L with
  | nil =>
    intro extra idx t st od st₂ od₂ hlt h
    exfalso
    rw [show checkLoop tm T yr [] idx t st od = .finished t st od from rfl] at h
    simp only [LoopRes.finished.injEq] at h
    omega
  | cons c L ih =>
    intro extra idx t st od st₂ od₂ hlt h
    by_cases hlen : (splitSepChar ' ' c).length = (splitSepChar ' ' (tm.getD t [])).length
    · cases hmw : matchWords t yr
          ((splitSepChar ' ' c).zip (splitSepChar ' ' (tm.getD t []))) 0 od with
      | none =>
        rw [checkLoop_cons, if_neg (not_not_intro hlen), hmw] at h
        cases h
      | some md =>
        have hmw2 : matchWords t yr
            ((splitSepChar ' ' c).zip (splitSepChar ' ' (tm.getD t []))) 0 od
            = some (md.1, md.2) := by rw [hmw]
        rw [checkLoop_cons_some tm T yr c L idx t st od md.1 md.2 hlen hmw2] at h
        rw [List.cons_append,
          checkLoop_cons_some tm T yr c (L ++ extra) idx t st od md.1 md.2 hlen hmw2]
        by_cases hT2 : (if md.1 = (splitSepChar ' ' (tm.getD t [])).length
            then t + 1 else t) ≠ T
        · rw [if_pos hT2] at h ⊢
          refine ih extra (idx + 1) _ _ md.2 st₂ od₂ ?_ h
          by_cases hinc : md.1 = (splitSepChar ' ' (tm.getD t [])).length
          · rw [if_pos hinc]
            rw [if_pos hinc] at hT2
            omega
          · rw [if_neg hinc]
            exact hlt
        · rw [if_neg hT2] at h ⊢
          exact h
    · by_cases ht0 : t ≠ 0
      · rw [checkLoop_cons, if_pos hlen, if_pos ht0] at h
        cases h
      · rw [checkLoop_cons, if_pos hlen, if_neg ht0] at h
        rw [List.cons_append, checkLoop_cons, if_pos hlen, if_neg ht0]
        exact ih extra (idx + 1) t st od st₂ od₂ hlt h

theorem check_license_found_inv (block : String) (cfg : Config) (tmpl rep : String)
    (ht : cfg.license_header_template = some tmpl)
    (h : check_license block cfg = some (rep, .Found)) :
    ∃ st, ¬ ((cleanHeader block.data).length
        < (cleanHeader (renderedTemplate cfg tmpl)).length)
      ∧ 0 < (cleanHeader (renderedTemplate cfg tmpl)).length
      ∧ checkLoop (cleanHeader (renderedTemplate cfg tmpl))
          (cleanHeader (renderedTemplate cfg tmpl)).length cfg.license_year
          (cleanHeader block.data) 0 0 0 false
        = .finished (cleanHeader (renderedTemplate cfg tmpl)).length st false := by
  rw [check_license_eq block cfg tmpl ht] at h
  split at h
  · simp at h
  · rename_i hguard
    split at h
    · cases h
    · rename_i x hhd
      have hTpos : 0 < (cleanHeader (renderedTemplate cfg tmpl)).length := by
        cases hcl : cleanHeader (renderedTemplate cfg tmpl) with
        | nil => rw [hcl] at hhd; cases hhd
        | cons a b => simp
      split at h
      · simp at h
      · rename_i t st od hloop
        split at h
        · rename_i htT
          split at h
          · split at h
            · cases h
            · simp at h
          · rename_i hod
            have hodf : od = false := by
              revert hod; cases od <;> simp
            refine ⟨st, hguard, hTpos, ?_⟩
            rw [htT, hodf] at hloop
            exact hloop
        · simp at h

/-- Second extraction and check after the Header Writer places a rendered
header that itself re-checks `Found` (its lines carriage-return-free
comments, none an interpreter directive) after an acceptable prefix
(nothing, or complete hashbang/blank lines): the block starts with
exactly the header lines and the check classifies `Found`. -/
theorem second_pass_found_gen (cfg : Config) (tmpl hdr : String) (b rest₂ : List Char)
    (ht : cfg.license_header_template = some tmpl)
    (hh : format_header cfg = some hdr)
    (hcrh : ∀ c ∈ hdr.data, c ≠ '\r')
    (hhb : ∀ l ∈ rustLinesL hdr.data, isHashbang l = false)
    (hre : check_license hdr cfg = some ("", .Found))
    (hb : goodAbove b = true)
    (hnr : ∀ c ∈ rest₂, c ≠ '\r') :
    check_license (find_first_comment ⟨b ++ (hdr.data ++ rest₂)⟩).1 cfg
      = some ("", .Found) := by
  obtain ⟨L, hgl, hLnl⟩ := format_header_structure cfg hdr hh
  have hRLc : ∀ r ∈ L.map renderLine, isComment r = true := by
    intro r hr
    obtain ⟨x, hxm, hx⟩ := List.mem_map.mp hr
    rw [← hx]
    exact renderLine_isComment x
  have hRLnl : ∀ r ∈ L.map renderLine, ('\n' : Char) ∉ r := by
    intro r hr
    obtain ⟨x, hxm, hx⟩ := List.mem_map.mp hr
    rw [← hx]
    exact renderLine_no_nl x (hLnl x hxm)
  have hRLcr : ∀ r ∈ L.map renderLine, ('\r' : Char) ∉ r := by
    intro r hr hm
    exact hcrh '\r'
      (by rw [hgl]; exact mem_glueNL_of_mem (L.map renderLine) r '\r' hr hm) rfl
  have hHL : rustLinesL hdr.data = L.map renderLine := by
    rw [hgl]
    exact rustLinesL_glueNL (L.map renderLine) (fun l hl => ⟨hRLnl l hl, hRLcr l hl⟩)
  obtain ⟨st, hguard, hTpos, hloop⟩ := check_license_found_inv hdr cfg tmpl "" ht hre
  have hRLne : L.map renderLine ≠ [] := by
    intro hc
    have h0 : (cleanHeader hdr.data).length = 0 := by
      rw [cleanHeader, hHL, hc]
      rfl
    omega
  obtain ⟨r₀, RL, hRL⟩ : ∃ r₀ RL, L.map renderLine = r₀ :: RL := by
    cases hX : L.map renderLine with
    | nil => exact absurd hX hRLne
    | cons a as => exact ⟨a, as, rfl⟩
  have hlastH : hdr.data.getLast? = some '\n' := by
    rw [hgl]
    exact glueNL_getLast (L.map renderLine) hRLne
  have hlines : rustLinesL (b ++ (hdr.data ++ rest₂))
      = rustLinesL b ++ ((r₀ :: RL) ++ rustLinesL rest₂) := by
    have hmid : rustLinesL (hdr.data ++ rest₂) = (r₀ :: RL) ++ rustLinesL rest₂ := by
      rw [rustLinesL_append_newline hdr.data rest₂ hlastH, hHL, hRL]
    rcases goodAbove_cases b hb with hb0 | hbe
    · subst hb0
      rw [List.nil_append, hmid, show rustLinesL ([] : List Char) = [] from by decide,
        List.nil_append]
    · rw [rustLinesL_append_newline b _ hbe.1, hmid]
  have hpre : ∀ l ∈ rustLinesL b, isHashbang l = true ∨ isBlank l = true := by
    rcases goodAbove_cases b hb with hb0 | hbe
    · subst hb0
      intro l hl
      rw [show rustLinesL ([] : List Char) = [] from by decide] at hl
      cases hl
    · exact hbe.2
  have hr0c : isComment r₀ = true := hRLc r₀ (by rw [hRL]; simp)
  have hr0hb : isHashbang r₀ = false := hhb r₀ (by rw [hHL, hRL]; simp)
  have hr0bl : isBlank r₀ = false := isBlank_false_of_isComment r₀ hr0c
  have hblock : (find_first_comment ⟨b ++ (hdr.data ++ rest₂)⟩).1.data
      = (ffcAux (rustLinesL (b ++ (hdr.data ++ rest₂))) [] 0).1 := rfl
  have hstep2 : ffcAux ((r₀ :: RL) ++ rustLinesL rest₂) [] 0
      = ffcAux (RL ++ rustLinesL rest₂) (r₀ ++ ['\n']) 0 := by
    rw [show ((r₀ :: RL) ++ rustLinesL rest₂) = r₀ :: (RL ++ rustLinesL rest₂) from rfl]
    rw [show ffcAux (r₀ :: (RL ++ rustLinesL rest₂)) [] 0
        = ffcAux (RL ++ rustLinesL rest₂) (([] : List Char) ++ r₀ ++ ['\n']) 0 from by
      simp only [ffcAux, List.isEmpty_nil, if_pos, hr0hb, hr0bl, hr0c,
        Bool.false_eq_true, if_false]]
    rw [List.nil_append]
  have hstep3 := ffcAux_state_nonempty (RL ++ rustLinesL rest₂) (r₀ ++ ['\n']) 0 (by simp)
  have hTW : (RL ++ rustLinesL rest₂).takeWhile (fun l => isComment l)
      = RL ++ (rustLinesL rest₂).takeWhile (fun l => isComment l) :=
    takeWhileC_append_all (fun l => isComment l) RL (rustLinesL rest₂)
      (fun a ha => hRLc a (by rw [hRL]; simp [ha]))
  have hglue2 : (r₀ ++ ['\n'])
      ++ glueNL (RL ++ (rustLinesL rest₂).takeWhile (fun l => isComment l))
      = glueNL ((r₀ :: RL) ++ (rustLinesL rest₂).takeWhile (fun l => isComment l)) := by
    rw [show ((r₀ :: RL) ++ (rustLinesL rest₂).takeWhile (fun l => isComment l))
        = r₀ :: (RL ++ (rustLinesL rest₂).takeWhile (fun l => isComment l)) from rfl,
      glueNL, List.append_assoc]
    rfl
  have hblock₂ : (find_first_comment ⟨b ++ (hdr.data ++ rest₂)⟩).1.data
      = glueNL ((r₀ :: RL) ++ (rustLinesL rest₂).takeWhile (fun l => isComment l)) := by
    rw [hblock, hlines, ffcAux_pre_fst (rustLinesL b) _ 0 hpre, hstep2, hstep3, hTW,
      ← hglue2]
  have hBL : rustLinesL (find_first_comment ⟨b ++ (hdr.data ++ rest₂)⟩).1.data
      = (r₀ :: RL) ++ (rustLinesL rest₂).takeWhile (fun l => isComment l) := by
    rw [hblock₂]
    apply rustLinesL_glueNL
    intro l hl
    rcases List.mem_append.mp hl with h1 | h1
    · exact ⟨hRLnl l (by rw [hRL]; exact h1), hRLcr l (by rw [hRL]; exact h1)⟩
    · have hmem : l ∈ rustLinesL rest₂ :=
        mem_of_mem_takeWhileC (fun l => isComment l) (rustLinesL rest₂) l h1
      exact ⟨not_nl_of_mem_rustLinesL rest₂ l hmem,
        fun hm => hnr '\r' (chars_of_mem_rustLinesL rest₂ l '\r' hmem hm) rfl⟩
  have hclean : cleanHeader (find_first_comment ⟨b ++ (hdr.data ++ rest₂)⟩).1.data
      = cleanHeader hdr.data
        ++ ((rustLinesL rest₂).takeWhile (fun l => isComment l)).map
            (fun line => trimChars (line.dropWhile (fun c => c = '#'))) := by
    rw [cleanHeader, hBL, List.map_append, cleanHeader, hHL, hRL]
  obtain ⟨t0, hh0⟩ : ∃ x, (cleanHeader (renderedTemplate cfg tmpl)).head? = some x := by
    cases hcl : cleanHeader (renderedTemplate cfg tmpl) with
    | nil => rw [hcl] at hTpos; simp at hTpos
    | cons a b2 => exact ⟨a, rfl⟩
  rw [check_license_eq _ cfg tmpl ht, hclean]
  have hguard₂ : ¬ ((cleanHeader hdr.data
        ++ ((rustLinesL rest₂).takeWhile (fun l => isComment l)).map
            (fun line => trimChars (line.dropWhile (fun c => c = '#')))).length
      < (cleanHeader (renderedTemplate cfg tmpl)).length) := by
    rw [List.length_append]
    omega
  rw [if_neg hguard₂, hh0]
  have hloop₂ := checkLoop_append_finished (cleanHeader (renderedTemplate cfg tmpl))
    (cleanHeader (renderedTemplate cfg tmpl)).length cfg.license_year
    (cleanHeader hdr.data)
    (((rustLinesL rest₂).takeWhile (fun l => isComment l)).map
      (fun line => trimChars (line.dropWhile (fun c => c = '#'))))
    0 0 0 false st false hTpos hloop
  rw [hloop₂]
  simp

/-- C8 (amended): Fix mode is idempotent whenever the configuration's
rendered header itself re-checks as `Found` (it is carriage-return-free,
none of its lines is an interpreter directive, and the Matcher classifies
it `Found` — the spec's assumption that the rewritten header matches the
template with the current year), on every carriage-return-free content
for which the write lands where the extractor will look again: for
`Missing` the insertion offset is 0 (no hashbang corruption), and for
`Outdated` the text before the first occurrence of the span consists of
complete hashbang/blank lines.  Under these conditions the second Fix
pass classifies `Found`, reports needs-fix false, and leaves the file
unchanged. -/
theorem fix_mode_idempotent_amended (cfg : Config) (tmpl hdr : String)
    (content : String) (nf : Bool) (c₂ : String)
    (ht : cfg.license_header_template = some tmpl)
    (hh : format_header cfg = some hdr)
    (hcrh : ∀ c ∈ hdr.data, c ≠ '\r')
    (hhb : ∀ l ∈ rustLinesL hdr.data, isHashbang l = false)
    (hre : check_license hdr cfg = some ("", .Found))
    (hcr : ∀ c ∈ content.data, c ≠ '\r')
    (hM : (check_license (find_first_comment content).1 cfg).map Prod.snd
        = some .Missing → (find_first_comment content).2 = 0)
    (hO : (check_license (find_first_comment content).1 cfg).map Prod.snd
        = some .Outdated →
        goodAbove ((findSplit
          ((check_license (find_first_comment content).1 cfg).getD ("", .Found)).1.data
          (if content.data.getLast? = some '\n' then content.data
           else content.data ++ ['\n'])).getD ([], [])).1 = true)
    (h1 : format_file content cfg hdr false = some (nf, c₂)) :
    format_file c₂ cfg hdr false = some (false, c₂) := by
  cases hchk : check_license (find_first_comment content).1 cfg with
  | none =>
    unfold format_file at h1
    rw [hchk] at h1
    cases h1
  | some rc =>
    obtain ⟨rep, cls⟩ := rc
    cases cls with
    | Found =>
      rw [format_file_found_eq content cfg hdr rep hchk] at h1
      simp only [Option.some.injEq, Prod.mk.injEq] at h1
      rw [← h1.2]
      exact format_file_found_eq content cfg hdr rep hchk
    | Missing =>
      have hM2 := hM (by rw [hchk]; rfl)
      rw [format_file_missing_eq content cfg hdr rep hchk, hM2] at h1
      rw [insert_header, if_pos rfl] at h1
      simp only [Option.map_some', Option.some.injEq, Prod.mk.injEq] at h1
      have hfound := second_pass_found_gen cfg tmpl hdr []
        ((if content.data.head? = some '#' then ['\n'] else []) ++ content.data)
        ht hh hcrh hhb hre
        (by decide)
        (by
          intro c hc2
          rcases List.mem_append.mp hc2 with h | h
          · by_cases hcond : content.data.head? = some '#'
            · rw [if_pos hcond] at h
              simp at h
              subst h
              decide
            · rw [if_neg hcond] at h
              cases h
          · exact hcr c h)
      have hstr : (⟨[] ++ (hdr.data
          ++ ((if content.data.head? = some '#' then ['\n'] else [])
            ++ content.data))⟩ : String) = c₂ := by
        rw [← h1.2]
        exact congrArg String.mk (by simp [List.append_assoc])
      rw [← hstr]
      exact format_file_found_eq _ cfg hdr "" hfound
    | Outdated =>
      have hO2 := hO (by rw [hchk]; rfl)
      rw [hchk] at hO2
      simp only [Option.getD_some] at hO2
      rw [format_file_outdated_eq content cfg hdr rep hchk] at h1
      rw [update_header] at h1
      cases hfind : findSplit rep.data
          (if content.data.getLast? = some '\n' then content.data
           else content.data ++ ['\n']) with
      | none =>
        rw [hfind] at h1
        cases h1
      | some pq =>
        obtain ⟨bb, aa⟩ := pq
        rw [hfind] at h1 hO2
        simp only [Option.getD_some] at hO2
        simp only [Option.map_some', Option.some.injEq, Prod.mk.injEq] at h1
        have hdecomp := findSplit_eq_decomp rep.data _ bb aa hfind
        have haa : ∀ c ∈ aa, c ≠ '\r' := by
          intro c hcc
          have hmem : c ∈ (if content.data.getLast? = some '\n' then content.data
              else content.data ++ ['\n']) := by
            rw [hdecomp]
            simp [hcc]
          by_cases hcond : content.data.getLast? = some '\n'
          · rw [if_pos hcond] at hmem
            exact hcr c hmem
          · rw [if_neg hcond] at hmem
            rcases List.mem_append.mp hmem with h | h
            · exact hcr c h
            · simp at h
              subst h
              decide
        have hfound := second_pass_found_gen cfg tmpl hdr bb
          ((if aa.head? = some '#' then ['\n'] else []) ++ aa)
          ht hh hcrh hhb hre
          hO2
          (by
            intro c hc2
            rcases List.mem_append.mp hc2 with h | h
            · by_cases hcond : aa.head? = some '#'
              · rw [if_pos hcond] at h
                simp at h
                subst h
                decide
              · rw [if_neg hcond] at h
                cases h
            · exact haa c h)
        have hstr : (⟨bb ++ (hdr.data
            ++ ((if aa.head? = some '#' then ['\n'] else []) ++ aa))⟩ : String) = c₂ := by
          rw [← h1.2]
          exact congrArg String.mk (by simp [List.append_assoc])
        rw [← hstr]
        exact format_file_found_eq _ cfg hdr "" hfound

/-- C8 (witness): Scenario B run through the amended idempotence theorem
at the test configuration: fixing
`"#!/usr/bin/python\n\n# 2024 Acme Corp"` and fixing the result again
reports `Found` with no change. -/
theorem fix_mode_idempotent_amended_witness :
    format_file "#!/usr/bin/python\n\n# 2024 Acme Corp" testCfg testHdr false
      = some (true, "#!/usr/bin/python\n\n# 2025 Acme Corp\n\n")
    ∧ format_file "#!/usr/bin/python\n\n# 2025 Acme Corp\n\n" testCfg testHdr false
      = some (false, "#!/usr/bin/python\n\n# 2025 Acme Corp\n\n") :=
  ⟨by decide,
    fix_mode_idempotent_amended testCfg "# {year} {licensee}" testHdr
      "#!/usr/bin/python\n\n# 2024 Acme Corp" true
      "#!/usr/bin/python\n\n# 2025 Acme Corp\n\n"
      rfl (by decide) (by decide) (by decide) (by decide) (by decide) (by decide)
      (by decide) (by decide)⟩

theorem joinSep_append (sep : Char) :
    ∀ (A B : List (List Char)), A ≠ [] → B ≠ [] →
      joinSep sep (A ++ B) = joinSep sep A ++ sep :: joinSep sep B := by
  intro A
  induction A with
  | nil => intro B h _; exact absurd rfl h
  | cons f A ih =>
    intro B _ hB
    cases A with
    | nil =>
      cases B with
      | nil => exact absurd rfl hB
      | cons g B₂ => rfl
    | cons f₂ A₂ =>
      rw [show ((f :: f₂ :: A₂) ++ B) = f :: ((f₂ :: A₂) ++ B) from rfl]
      rw [show joinSep sep (f :: ((f₂ :: A₂) ++ B))
          = f ++ sep :: joinSep sep ((f₂ :: A₂) ++ B) from by
        rw [show ((f₂ :: A₂) ++ B) = f₂ :: (A₂ ++ B) from rfl]
        rfl]
      rw [ih B (by simp) hB]
      rw [show joinSep sep (f :: f₂ :: A₂) = f ++ sep :: joinSep sep (f₂ :: A₂) from rfl]
      simp [List.append_assoc]

theorem joinSep_splitSep (sep : Char) : ∀ (s : List Char),
    joinSep sep (splitSepChar sep s) = s := by
  intro s
  induction s with
  | nil => rfl
  | cons c rest ih =>
    obtain ⟨g, gs, hg⟩ : ∃ g gs, splitSepChar sep rest = g :: gs := by
      cases h : splitSepChar sep rest with
      | nil => exact absurd h (splitSepChar_ne_nil sep rest)
      | cons g gs => exact ⟨g, gs, rfl⟩
    by_cases hc : c = sep
    · rw [splitSepChar, if_pos hc, hg]
      rw [show joinSep sep ([] :: g :: gs) = [] ++ sep :: joinSep sep (g :: gs) from rfl]
      rw [← hg, ih, hc]
      rfl
    · rw [splitSepChar, if_neg hc, hg]
      cases gs with
      | nil =>
        rw [hg] at ih
        rw [show joinSep sep [c :: g] = c :: g from rfl]
        rw [show joinSep sep [g] = g from rfl] at ih
        rw [ih]
      | cons g₂ gs₂ =>
        rw [hg] at ih
        rw [show joinSep sep (g :: g₂ :: gs₂) = g ++ sep :: joinSep sep (g₂ :: gs₂) from rfl]
          at ih
        rw [show joinSep sep ((c :: g) :: g₂ :: gs₂)
            = (c :: g) ++ sep :: joinSep sep (g₂ :: gs₂) from rfl]
        rw [show ((c :: g) ++ sep :: joinSep sep (g₂ :: gs₂))
            = c :: (g ++ sep :: joinSep sep (g₂ :: gs₂)) from rfl, ih]

theorem map_stripCR_id (L : List (List Char)) (h : ∀ f ∈ L, ('\r' : Char) ∉ f) :
    L.map stripCR = L := by
  induction L with
  | nil => rfl
  | cons f fs ih =>
    rw [List.map_cons, stripCR_of_not_mem f (h f (by simp)),
      ih (fun x hx => h x (by simp [hx]))]

theorem ensureNL_eq_joinSep (s : List Char)
    (hcr : ∀ c ∈ s, c ≠ '\r') (hne : rustLinesL s ≠ []) :
    (if s.getLast? = some '\n' then s else s ++ ['\n'])
      = joinSep '\n' (rustLinesL s) ++ ['\n'] := by
  have hnocr : ∀ f ∈ (splitSepChar '\n' s).dropLast, ('\r' : Char) ∉ f := by
    intro f hf hm
    exact hcr '\r' (mem_of_mem_mem_splitSepChar '\n' s f '\r'
      (List.dropLast_subset _ hf) hm) rfl
  obtain ⟨g, hg⟩ : ∃ g, (splitSepChar '\n' s).getLast? = some g := by
    cases h : (splitSepChar '\n' s).getLast? with
    | none =>
      rw [List.getLast?_eq_none_iff] at h
      exact absurd h (splitSepChar_ne_nil '\n' s)
    | some g => exact ⟨g, rfl⟩
  have hs : s = joinSep '\n' (splitSepChar '\n' s) := (joinSep_splitSep '\n' s).symm
  have hfs : splitSepChar '\n' s = (splitSepChar '\n' s).dropLast ++ [g] :=
    eq_dropLast_concat_of_getLast _ g hg
  cases g with
  | nil =>
    have hrl : rustLinesL s = (splitSepChar '\n' s).dropLast := by
      rw [rustLinesL]
      simp only [hg]
      rw [map_stripCR_id _ hnocr]
      exact List.append_nil _
    have hA : (splitSepChar '\n' s).dropLast ≠ [] := by rw [← hrl]; exact hne
    have hs₂ : s = joinSep '\n' ((splitSepChar '\n' s).dropLast) ++ ['\n'] := by
      conv_lhs => rw [hs, hfs]
      rw [joinSep_append '\n' _ [[]] hA (by simp)]
      rfl
    have hlast : s.getLast? = some '\n' := by
      rw [hs₂]
      exact List.getLast?_concat _
    rw [if_pos hlast, hrl, ← hs₂]
  | cons x xs =>
    have hgne : ('\n' : Char) ∉ (x :: xs) :=
      not_mem_of_mem_splitSepChar '\n' s (x :: xs) (mem_of_getLastC _ _ hg)
    have hrl : rustLinesL s = (splitSepChar '\n' s).dropLast.map stripCR ++ [x :: xs] := by
      rw [rustLinesL]
      simp only [hg]
    have hlastg : (x :: xs).getLast? ≠ some '\n' := by
      intro hc
      exact hgne (mem_of_getLastC _ _ hc)
    have hlast : ¬ (s.getLast? = some '\n') := by
      intro hc
      apply hlastg
      rw [hs, hfs] at hc
      cases hA : (splitSepChar '\n' s).dropLast with
      | nil =>
        rw [hA] at hc
        simpa using hc
      | cons d ds =>
        rw [hA, joinSep_append '\n' (d :: ds) [x :: xs] (by simp) (by simp)] at hc
        rw [show joinSep '\n' [x :: xs] = x :: xs from rfl] at hc
        rwa [List.getLast?_append_of_ne_nil _ (by simp), List.getLast?_cons_cons] at hc
    rw [if_neg hlast, hrl]
    cases hA : (splitSepChar '\n' s).dropLast with
    | nil =>
      have hs₂ : s = x :: xs := by
        conv_lhs => rw [hs, hfs, hA]
        rfl
      rw [hs₂]
      rfl
    | cons d ds =>
      rw [map_stripCR_id (d :: ds) (by rw [hA] at hnocr; exact hnocr)]
      rw [joinSep_append '\n' (d :: ds) [x :: xs] (by simp) (by simp)]
      rw [show joinSep '\n' [x :: xs] = x :: xs from rfl]
      have hs₂ : s = joinSep '\n' (d :: ds) ++ '\n' :: (x :: xs) := by
        conv_lhs => rw [hs, hfs, hA]
        rw [joinSep_append '\n' (d :: ds) [x :: xs] (by simp) (by simp)]
        rfl
      rw [← hs₂]

theorem ffcAux_decomp : ∀ (ls : List (List Char)) (ia : Nat),
    ∃ pre mid post, ls = pre ++ mid ++ post ∧ (ffcAux ls [] ia).1 = glueNL mid := by
  intro ls
  induction ls with
  | nil => intro ia; exact ⟨[], [], [], rfl, rfl⟩
  | cons l rest ih =>
    intro ia
    by_cases hhb : isHashbang l = true
    · obtain ⟨pre, mid, post, hsplit, hval⟩ := ih (ia + bytelen l + 1)
      refine ⟨l :: pre, mid, post, by rw [hsplit]; rfl, ?_⟩
      rw [show ffcAux (l :: rest) [] ia = ffcAux rest [] (ia + bytelen l + 1) from by
        simp [ffcAux, hhb]]
      exact hval
    · have hhbf : isHashbang l = false := by revert hhb; cases isHashbang l <;> simp
      by_cases hbl : isBlank l = true
      · obtain ⟨pre, mid, post, hsplit, hval⟩ := ih ia
        refine ⟨l :: pre, mid, post, by rw [hsplit]; rfl, ?_⟩
        rw [show ffcAux (l :: rest) [] ia = ffcAux rest [] ia from by
          simp [ffcAux, hhbf, hbl]]
        exact hval
      · have hblf : isBlank l = false := by revert hbl; cases isBlank l <;> simp
        by_cases hcm : isComment l = true
        · refine ⟨[], l :: rest.takeWhile (fun x => isComment x),
            rest.dropWhile (fun x => isComment x), ?_, ?_⟩
          · rw [List.nil_append, show (l :: rest.takeWhile (fun x => isComment x))
              ++ rest.dropWhile (fun x => isComment x)
              = l :: (rest.takeWhile (fun x => isComment x)
                ++ rest.dropWhile (fun x => isComment x)) from rfl,
              List.takeWhile_append_dropWhile]
          · rw [show ffcAux (l :: rest) [] ia
                = ffcAux rest (([] : List Char) ++ l ++ ['\n']) ia from by
              simp [ffcAux, hhbf, hblf, hcm]]
            rw [ffcAux_state_nonempty rest (([] : List Char) ++ l ++ ['\n']) ia (by simp)]
            rw [glueNL, List.nil_append, List.append_assoc]
            rfl
        · have hcmf : isComment l = false := by revert hcm; cases isComment l <;> simp
          refine ⟨[], [], l :: rest, by simp, ?_⟩
          rw [show ffcAux (l :: rest) [] ia = (([] : List Char), ia) from by
            simp [ffcAux, hhbf, hblf, hcmf]]
          rfl

theorem three_split {α : Type} (l : List α) (a b : Nat) :
    l = l.take a ++ ((l.drop a).take b) ++ ((l.drop a).drop b) := by
  conv_lhs => rw [← List.take_append_drop a l, ← List.take_append_drop b (l.drop a)]
  rw [List.append_assoc]

theorem joinSep_mid_infix (A M B : List (List Char)) :
    ∃ X Y, joinSep '\n' (A ++ M ++ B) ++ ['\n'] = X ++ joinSep '\n' M ++ Y := by
  by_cases hM : M = []
  · subst hM
    exact ⟨[], joinSep '\n' (A ++ [] ++ B) ++ ['\n'], by simp [joinSep]⟩
  · by_cases hA : A = []
    · by_cases hB : B = []
      · subst hA hB
        exact ⟨[], ['\n'], by simp⟩
      · subst hA
        refine ⟨[], '\n' :: joinSep '\n' B ++ ['\n'], ?_⟩
        rw [List.nil_append, joinSep_append '\n' M B hM hB]
        simp
    · by_cases hB : B = []
      · subst hB
        refine ⟨joinSep '\n' A ++ ['\n'], ['\n'], ?_⟩
        rw [List.append_nil, joinSep_append '\n' A M hA hM]
        simp
      · refine ⟨joinSep '\n' A ++ ['\n'], '\n' :: joinSep '\n' B ++ ['\n'], ?_⟩
        rw [List.append_assoc, joinSep_append '\n' A (M ++ B) hA
          (by intro hc; rw [List.append_eq_nil] at hc; exact hM hc.1),
          joinSep_append '\n' M B hM hB]
        simp

theorem check_license_outdated_inv (block : String) (cfg : Config) (rep : String)
    (h : check_license block cfg = some (rep, .Outdated)) :
    ∃ st T, st + T ≤ (rustLinesL block.data).length
      ∧ rep.data = joinSep '\n' (((rustLinesL block.data).drop st).take T) := by
  cases htm : cfg.license_header_template with
  | none =>
    unfold check_license at h
    rw [htm] at h
    cases h
  | some tmpl =>
    rw [check_license_eq block cfg tmpl htm] at h
    split at h
    · simp at h
    · split at h
      · cases h
      · split at h
        · simp at h
        · rename_i t st od hcl
          split at h
          · split at h
            · split at h
              · cases h
              · rename_i sl hsl
                simp only [Option.some.injEq, Prod.mk.injEq] at h
                rw [sliceCk] at hsl
                split at hsl
                · rename_i hbound
                  simp only [Option.some.injEq] at hsl
                  refine ⟨st, t, hbound.2, ?_⟩
                  rw [← h.1, ← hsl]
                  have harith : st + t - st = t := by omega
                  rw [harith]
                · cases hsl
            · simp at h
          · simp at h

/-- C6: for carriage-return-free content, when the Matcher classifies the
extracted block `Outdated` with span `span`, the exact substring search of
`update_header` over the (newline-terminated) content always succeeds —
the panic branch of the `unwrap` on `content.find` is unreachable — and
the rewrite produces `before ++ rendered header ++ (separating blank line
when the remainder starts with the comment marker) ++ after`. -/
theorem update_header_search_succeeds (content : String) (cfg : Config)
    (span hdr : String)
    (hcr : ∀ c ∈ content.data, c ≠ '\r')
    (h : check_license (find_first_comment content).1 cfg = some (span, .Outdated)) :
    ∃ b a,
      (if content.data.getLast? = some '\n' then content.data
       else content.data ++ ['\n']) = b ++ span.data ++ a
      ∧ update_header content span hdr
          = some ⟨b ++ hdr.data ++ (if a.head? = some '#' then ['\n'] else []) ++ a⟩ := by
  obtain ⟨st, T, hbound, hspan⟩ := check_license_outdated_inv _ cfg span h
  obtain ⟨pre, mid, post, hls, hblock⟩ := ffcAux_decomp (rustLinesL content.data) 0
  have hbd : (find_first_comment content).1.data = glueNL mid := by
    rw [show (find_first_comment content).1.data
      = (ffcAux (rustLinesL content.data) [] 0).1 from rfl]
    exact hblock
  have hmidprop : ∀ l ∈ mid, ('\n' : Char) ∉ l ∧ ('\r' : Char) ∉ l := by
    intro l hl
    have hmem : l ∈ rustLinesL content.data := by rw [hls]; simp [hl]
    exact ⟨not_nl_of_mem_rustLinesL _ l hmem,
      fun hm => hcr '\r' (chars_of_mem_rustLinesL _ l '\r' hmem hm) rfl⟩
  have hBL : rustLinesL (find_first_comment content).1.data = mid := by
    rw [hbd]
    exact rustLinesL_glueNL mid hmidprop
  rw [hBL] at hbound hspan
  have hmid3 : mid = mid.take st ++ ((mid.drop st).take T) ++ ((mid.drop st).drop T) :=
    three_split mid st T
  have hCL : rustLinesL content.data
      = (pre ++ mid.take st) ++ ((mid.drop st).take T)
        ++ (((mid.drop st).drop T) ++ post) := by
    calc rustLinesL content.data = pre ++ mid ++ post := hls
      _ = pre ++ (mid.take st ++ ((mid.drop st).take T) ++ ((mid.drop st).drop T)) ++ post := by
          rw [← hmid3]
      _ = (pre ++ mid.take st) ++ ((mid.drop st).take T)
            ++ (((mid.drop st).drop T) ++ post) := by simp only [List.append_assoc]
  by_cases hMnil : ((mid.drop st).take T) = []
  · have hspan0 : span.data = [] := by rw [hspan, hMnil]; rfl
    refine ⟨[], (if content.data.getLast? = some '\n' then content.data
      else content.data ++ ['\n']), by rw [hspan0]; rfl, ?_⟩
    rw [update_header, hspan0, findSplit_isPrefix [] _ rfl]
    simp
  · have hCLne : rustLinesL content.data ≠ [] := by
      intro hc
      apply hMnil
      have h2 : ((pre ++ mid.take st) ++ ((mid.drop st).take T)) = []
          ∧ ((((mid.drop st).drop T) ++ post)) = [] :=
        List.append_eq_nil.mp (by rw [← hCL, hc])
      exact (List.append_eq_nil.mp h2.1).2
    have hcontent : (if content.data.getLast? = some '\n' then content.data
        else content.data ++ ['\n'])
        = joinSep '\n' (rustLinesL content.data) ++ ['\n'] :=
      ensureNL_eq_joinSep content.data hcr hCLne
    obtain ⟨X, Y, hXY⟩ := joinSep_mid_infix (pre ++ mid.take st)
      ((mid.drop st).take T) (((mid.drop st).drop T) ++ post)
    have hdecomp : (if content.data.getLast? = some '\n' then content.data
        else content.data ++ ['\n']) = X ++ span.data ++ Y := by
      rw [hcontent, hCL, hXY, ← hspan]
    obtain ⟨b, a, hfind⟩ := findSplit_of_decomp span.data X Y
    have hfind2 : findSplit span.data (if content.data.getLast? = some '\n'
        then content.data else content.data ++ ['\n']) = some (b, a) := by
      rw [hdecomp]
      exact hfind
    have hba := findSplit_eq_decomp span.data _ b a hfind2
    refine ⟨b, a, hba, ?_⟩
    rw [update_header, hfind2]

/-- A two-line template used by the C6 counterexample. -/
def cfgTwoLine : Config :=
  { license_header_template := some "# {year} Acme\n# Two"
    licensee := none
    license_year := 2025 }

/-- C6 (counterexample): on a CRLF file with a two-line template, the
Matcher strips the carriage returns when building the block, the span
joins the lines with a bare newline, the span is then not a substring of
the raw content, and the exact search of `update_header` fails — the
panic branch IS reachable. -/
theorem update_header_crlf_find_fails :
    check_license (find_first_comment "# 2024 Acme\r\n# Two\r\nx\n").1 cfgTwoLine
      = some ("# 2024 Acme\n# Two", .Outdated)
    ∧ update_header "# 2024 Acme\r\n# Two\r\nx\n" "# 2024 Acme\n# Two"
        "# 2025 Acme\n# Two\n" = none := by
  refine ⟨by decide, by decide⟩

/-- C6 (witness): Scenario B content run through the amended search
theorem. -/
theorem update_header_search_succeeds_witness :
    (∀ c ∈ "#!/usr/bin/python\n\n# 2024 Acme Corp".data, c ≠ '\r')
    ∧ check_license (find_first_comment "#!/usr/bin/python\n\n# 2024 Acme Corp").1 cfgB
        = some ("# 2024 Acme Corp", .Outdated)
    ∧ ∃ b a, (if "#!/usr/bin/python\n\n# 2024 Acme Corp".data.getLast? = some '\n'
          then "#!/usr/bin/python\n\n# 2024 Acme Corp".data
          else "#!/usr/bin/python\n\n# 2024 Acme Corp".data ++ ['\n'])
        = b ++ "# 2024 Acme Corp".data ++ a
      ∧ update_header "#!/usr/bin/python\n\n# 2024 Acme Corp" "# 2024 Acme Corp"
          "# 2025 Acme Corp\n"
          = some ⟨b ++ "# 2025 Acme Corp\n".data
              ++ (if a.head? = some '#' then ['\n'] else []) ++ a⟩ :=
  ⟨by decide, by decide,
    update_header_search_succeeds "#!/usr/bin/python\n\n# 2024 Acme Corp" cfgB
      "# 2024 Acme Corp" "# 2025 Acme Corp\n" (by decide) (by decide)⟩
